import Mathlib
/-!
# FastaFrames: verification of the FASTA header parser/serializer

Shallow embedding of `src/fastaframes/fastaframes.py` and
`src/fastaframes/util.py`.  Python strings are modelled as `List Char`
(`Str`), Python `None`-able string fields as `Option Str`, raised
exceptions as `Except PyErr` results, and the lazy generator
`fasta_to_entries` as a function returning the list of yielded entries
together with an optional terminal error (a generator may yield some
entries and then raise).

Pandas values flowing through the datatype normalizer are modelled by
`PyVal`; Python floats are modelled as exact rationals (no theorem below
depends on float rounding), and the string subsets accepted by
`int(...)` / `float(...)` are modelled as optionally signed decimal
digit strings (resp. decimal strings with an optional point), with
surrounding whitespace allowed; exotic Python forms (underscore digit
separators, exponents, `inf`/`nan`, non-ASCII digits) are outside the
modelled subset and are not used by any claim.
-/
set_option maxRecDepth 4000
/-- Python `str`, modelled as a list of characters. -/
abbrev Str := List Char
/-- The errors raised by the modelled code: Python `ValueError` and
`TypeError`. -/
inductive PyErr where
  | valueError
  | typeError
  deriving DecidableEq, Repr
instance {ε α : Type} [DecidableEq ε] [DecidableEq α] : DecidableEq (Except ε α) := fun a b =>
  match a, b with
  | .ok x, .ok y =>
      if h : x = y then isTrue (by rw [h]) else isFalse (fun hc => by cases hc; exact h rfl)
  | .ok _, .error _ => isFalse (fun hc => by cases hc)
  | .error _, .ok _ => isFalse (fun hc => by cases hc)
  | .error e, .error f =>
      if h : e = f then isTrue (by rw [h]) else isFalse (fun hc => by cases hc; exact h rfl)
/-! ## String primitives

Python's `s.split(sep)` with a one-character separator keeps empty
pieces and always returns at least one piece; `sep.join` is its
left inverse. -/
/-- Python `s.split(c)` for a single-character separator: splits at every
occurrence of `c`, keeping empty pieces; never returns `[]`. -/
def splitChar (c : Char) : Str → List Str
  | [] => [[]]
  | x :: xs =>
    if x = c then [] :: splitChar c xs
    else (x :: (splitChar c xs).headI) :: (splitChar c xs).tail
/-- Python `c.join(pieces)` for a single-character separator. -/
def joinChar (c : Char) : List Str → Str
  | [] => []
  | [w] => w
  | w :: v :: ws => w ++ c :: joinChar c (v :: ws)
/-- Python `s.rstrip()`: drop trailing whitespace. -/
def pyRstrip (xs : Str) : Str :=
  (xs.reverse.dropWhile Char.isWhitespace).reverse
/-- Python `s.strip()`: drop leading and trailing whitespace. -/
def pyStrip (xs : Str) : Str :=
  ((xs.dropWhile Char.isWhitespace).reverse.dropWhile Char.isWhitespace).reverse
/-- Python `s.rstrip('\n')`: drop trailing newline characters only. -/
def pyRstripNl (xs : Str) : Str :=
  (xs.reverse.dropWhile (fun c => c = '\n')).reverse
/-! ## The tag dictionary

`_process_line_elements` accumulates tokens in a Python `dict` keyed by
the two-letter tag, via `info.setdefault(tag, []).append(elem)`.  Only
`.get` is ever applied to the result, so an insertion-ordered
association list is a faithful model. -/
/-- Python `d.get(k)` on an association list. -/
def dictGet (k : Str) : List (Str × List Str) → Option (List Str)
  | [] => none
  | (k', vs) :: rest => if k' = k then some vs else dictGet k rest
/-- Python `d.setdefault(k, []).append(v)` on an association list. -/
def dictAppend (k : Str) (v : Str) : List (Str × List Str) → List (Str × List Str)
  | [] => [(k, [v])]
  | (k', vs) :: rest =>
    if k' = k then (k', vs ++ [v]) :: rest else (k', vs) :: dictAppend k v rest
/-! ## Data model

`FastaEntry` from `fastaframes.py`.  The Python dataclass types
`db`/`unique_identifier`/`entry_name` as `str`, but the malformed-header
recovery path in `_extract_initial_info` assigns `None` to `db` and
`entry_name`, and `serialize` renders `None` through an f-string as the
text `None`; all nine header fields are therefore modelled as
`Option Str` (the absent sentinel is `none`). -/
structure FastaEntry where
  db : Option Str
  unique_identifier : Option Str
  entry_name : Option Str
  protein_name : Option Str
  organism_name : Option Str
  organism_identifier : Option Str
  gene_name : Option Str
  protein_existence : Option Str
  sequence_version : Option Str
  protein_sequence : Str
  deriving DecidableEq, Repr
/-- The six recognized two-letter tags (`FastaFields` enum values). -/
def tagPN : Str := "PN".toList
def tagOS : Str := "OS".toList
def tagOX : Str := "OX".toList
def tagGN : Str := "GN".toList
def tagPE : Str := "PE".toList
def tagSV : Str := "SV".toList
/-- Interpolation of a Python `str`-or-`None` value into an f-string:
`None` renders as the four characters `None`. -/
def pyFStr : Option Str → Str
  | none => "None".toList
  | some s => s
/-- Python truthiness of a `str`-or-`None` value: `None` and the empty
string are falsy. -/
def pyTruthy : Option Str → Bool
  | none => false
  | some s => !s.isEmpty
/-- `FastaEntry.serialize`: header `>{db}|{unique_identifier}|{entry_name}`,
then ` XX=value` for each truthy optional field in the fixed order, then
a newline, the protein sequence, and a trailing newline. -/
def serialize (e : FastaEntry) : Str :=
  let optional_fields : List (Str × Option Str) :=
    [ (' ' :: tagPN ++ ['='], e.protein_name),
      (' ' :: tagOS ++ ['='], e.organism_name),
      (' ' :: tagOX ++ ['='], e.organism_identifier),
      (' ' :: tagGN ++ ['='], e.gene_name),
      (' ' :: tagPE ++ ['='], e.protein_existence),
      (' ' :: tagSV ++ ['='], e.sequence_version) ]
  let fasta_header :=
    '>' :: pyFStr e.db ++ '|' :: pyFStr e.unique_identifier
      ++ '|' :: pyFStr e.entry_name
      ++ (optional_fields.map
            (fun kv => if pyTruthy kv.2 then kv.1 ++ kv.2.getD [] else [])).flatten
  fasta_header ++ '\n' :: e.protein_sequence ++ ['\n']
/-- `entries_to_fasta` (in-memory target): each entry's serialization is
written to one buffer in order. -/
def entries_to_fasta (es : List FastaEntry) : Str :=
  (es.map serialize).flatten
/-! ## Header parsing -/
/-- `_extract_fasta_header_elements`: strip trailing whitespace, then
`.replace(">", "")` — with a one-character pattern and empty replacement
this removes **every** occurrence of `>` — then split on single spaces. -/
def _extract_fasta_header_elements (entry_str : Str) : List Str :=
  splitChar ' ' ((pyRstrip entry_str).filter (fun c => c ≠ '>'))
/-- Result of `_extract_initial_info`, plus whether `warnings.warn` was
invoked on the way (the Python function's only side effect). -/
structure InitialInfo where
  db : Option Str
  unique_identifier : Option Str
  entry_name : Option Str
  warned : Bool
  deriving DecidableEq, Repr
/-- `_extract_initial_info`: split `line_elements[0]` on `|`; on exactly
3 parts they are `(db, unique_identifier, entry_name)`; on any other
count (Python's `len(...) >= 1`, which a `split` result always
satisfies) warn and keep the whole token as `unique_identifier` with
`db`/`entry_name` set to `None`; the final `raise ValueError` branch
requires a zero-length split result.  Callers always pass a non-empty
list (a `split` result), so `headI` matches Python's `[0]`. -/
def _extract_initial_info (line_elements : List Str) : Except PyErr InitialInfo :=
  let first_element_parts := splitChar '|' line_elements.headI
  if first_element_parts.length = 3 then
    .ok ⟨some first_element_parts.headI,
         some first_element_parts.tail.headI,
         some first_element_parts.tail.tail.headI, false⟩
  else if 1 ≤ first_element_parts.length then
    .ok ⟨none, some line_elements.headI, none, true⟩
  else
    .error .valueError
/-- The set `{field.value for field in FastaFields}`. -/
def validTagStrs : List Str := [tagPN, tagOS, tagOX, tagGN, tagPE, tagSV]
/-- The loop body of `_process_line_elements` over `line_elements[1:]`:
a token containing `=` anywhere switches `current_state` to its first
two characters and contributes the token minus its first three
characters; each token is then appended under `current_state`, which
must be one of the six recognized tags (else `ValueError`). -/
def processElems : List Str → Str → List (Str × List Str) →
    Except PyErr (List (Str × List Str))
  | [], _, info => .ok info
  | elem :: rest, current_state, info =>
    let step := if '=' ∈ elem then (elem.take 2, elem.drop 3)
                else (current_state, elem)
    if step.1 ∈ validTagStrs then
      processElems rest step.1 (dictAppend step.1 step.2 info)
    else
      .error .valueError
/-- `_process_line_elements`: run the classifier over `line_elements[1:]`
starting from the protein-name tag with an empty dictionary. -/
def _process_line_elements (line_elements : List Str) :
    Except PyErr (List (Str × List Str)) :=
  processElems (line_elements.drop 1) tagPN []
/-- `joined_info.get(tag)` where `_join_list_values` rejoins each token
list with single spaces and maps an empty token list to `None`. -/
def joinedValue : Option (List Str) → Option Str
  | none => none
  | some vs => if vs.isEmpty then none else some (joinChar ' ' vs)
/-- `_fasta_str_to_entry`: tokenize the header, extract the initial
triple, classify the trailing tokens, and assemble the entry (with the
empty protein sequence); also reports whether a warning was raised. -/
def _fasta_str_to_entry (fasta_str : Str) : Except PyErr (FastaEntry × Bool) := do
  let line_elements := _extract_fasta_header_elements fasta_str
  let ii ← _extract_initial_info line_elements
  let info ← _process_line_elements line_elements
  pure ({ db := ii.db
          unique_identifier := ii.unique_identifier
          entry_name := ii.entry_name
          protein_name := joinedValue (dictGet tagPN info)
          organism_name := joinedValue (dictGet tagOS info)
          organism_identifier := joinedValue (dictGet tagOX info)
          gene_name := joinedValue (dictGet tagGN info)
          protein_existence := joinedValue (dictGet tagPE info)
          sequence_version := joinedValue (dictGet tagSV info)
          protein_sequence := [] }, ii.warned)
/-- The line loop of the generator `fasta_to_entries`, as a function from
the remaining lines and the open entry to the list of entries yielded
from that point on, together with the error that terminates the
generator, if any.  A yield that precedes a raise is kept: the Python
generator yields the open entry on seeing the next header line *before*
parsing it. -/
def fastaLinesToEntries (skip_error : Bool) :
    List Str → Option FastaEntry → List FastaEntry × Option PyErr
  | [], current_entry => (current_entry.toList, none)
  | l :: rest, current_entry =>
    let line := pyStrip l
    if line.isEmpty then
      fastaLinesToEntries skip_error rest current_entry
    else if line.headI = '>' then
      let tail_result :=
        match _fasta_str_to_entry line with
        | .ok (e, _) => fastaLinesToEntries skip_error rest (some e)
        | .error err =>
          if skip_error then fastaLinesToEntries skip_error rest none
          else ([], some err)
      (current_entry.toList ++ tail_result.1, tail_result.2)
    else
      match current_entry with
      | some e =>
        fastaLinesToEntries skip_error rest
          (some { e with protein_sequence := e.protein_sequence ++ line })
      | none => fastaLinesToEntries skip_error rest none
/-- `read_lines_from_string` (`util.py`): split on newlines, then
`rstrip('\n')` each line. -/
def read_lines_from_string (s : Str) : List Str :=
  (splitChar '\n' s).map pyRstripNl
/-- `fasta_to_entries` on in-memory text (a string that is not an
existing filesystem path, so `get_lines` takes the
`read_lines_from_string` branch). -/
def fasta_to_entries (data : Str) (skip_error : Bool) :
    List FastaEntry × Option PyErr :=
  fastaLinesToEntries skip_error (read_lines_from_string data) none

/-! ## The line source (`get_lines` in `util.py`)

`get_lines` dispatches on the runtime type of its argument.  The input
universe is modelled by `LineInput`: a string (with the result of the
`os.path.exists` check and, for the path case, the file's raw lines as
explicit data), a text stream (its raw lines, each possibly ending in a
newline), any other iterable (of text or byte chunks), and a
non-iterable value such as an `int` — for which the `for` loop in the
final `else` branch raises `TypeError`.  No branch of `get_lines`
raises `ValueError`, although its docstring promises one for
unsupported input types. -/

/-- A chunk yielded by an arbitrary iterable input: text, or bytes that
get decoded as UTF-8 (modelled by the decoded text). -/
inductive PyChunk where
  | text (s : Str)
  | bytes (decoded : Str)
  deriving DecidableEq, Repr

/-- The decoded text of a chunk. -/
def pyChunkStr : PyChunk → Str
  | .text s => s
  | .bytes decoded => decoded

/-- The runtime types `get_lines` can receive. -/
inductive LineInput where
  | pathOrText (s : Str) (existsAsPath : Bool) (fileRawLines : List Str)
  | textStream (rawLines : List Str)
  | chunkIter (chunks : List PyChunk)
  | nonIterable
  deriving DecidableEq, Repr

/-- `get_lines`: a `str` is read as a file if it exists on disk, else as
literal text; file-like objects and iterables are consumed line by line
with `rstrip('\n')`; anything non-iterable makes the `for` loop of the
final `else` branch raise `TypeError`. -/
def get_lines : LineInput → Except PyErr (List Str)
  | .pathOrText s existsAsPath fileRawLines =>
    if existsAsPath then .ok (fileRawLines.map pyRstripNl)
    else .ok (read_lines_from_string s)
  | .textStream rawLines => .ok (rawLines.map pyRstripNl)
  | .chunkIter chunks => .ok (chunks.map (fun c => pyRstripNl (pyChunkStr c)))
  | .nonIterable => .error .typeError

/-! ## The datatype normalizer (`util.py`)

`best_datatype_for_list` tries `int`, then `float`, then `str` over the
whole column; `convert_to_best_datatype` applies the winner.  `PyVal`
models the values a pandas column built from `FastaEntry` records can
hold after conversions. -/

/-- A Python value in a dataframe column: `int`, `float` (modelled as an
exact rational), `str`, or `None`. -/
inductive PyVal where
  | vint (n : ℤ)
  | vfloat (q : ℚ)
  | vstr (s : Str)
  | vnone
  deriving DecidableEq, Repr

/-- Nonempty all-digit string? -/
def isDigitStr (s : Str) : Bool :=
  !s.isEmpty && s.all Char.isDigit

/-- Numeric value of a digit string. -/
def digitsToNat (s : Str) : ℕ :=
  s.foldl (fun acc c => 10 * acc + (c.toNat - '0'.toNat)) 0

/-- Strip one optional leading sign; returns (isNegative, rest). -/
def pySign : Str → Bool × Str
  | '+' :: ds => (false, ds)
  | '-' :: ds => (true, ds)
  | ds => (false, ds)

/-- Python `int(s)` on a string: optional surrounding whitespace, one
optional sign, then decimal digits. -/
def pyIntOfString (s : Str) : Option ℤ :=
  let sg := pySign (pyStrip s)
  if isDigitStr sg.2 then
    some (if sg.1 then -(digitsToNat sg.2 : ℤ) else (digitsToNat sg.2 : ℤ))
  else none

/-- The unsigned body accepted by Python `float(s)`: digits, optionally
with one decimal point somewhere (at least one digit overall). -/
def pyFloatBody (body : Str) : Option ℚ :=
  match splitChar '.' body with
  | [ds] => if isDigitStr ds then some (digitsToNat ds : ℚ) else none
  | [a, b] =>
    if (a.all Char.isDigit && b.all Char.isDigit) && (!a.isEmpty || !b.isEmpty) then
      some ((digitsToNat a : ℚ) + (digitsToNat b : ℚ) / ((10 : ℚ) ^ b.length))
    else none
  | _ => none

/-- Python `float(s)` on a string: optional surrounding whitespace, one
optional sign, then a decimal body. -/
def pyFloatOfString (s : Str) : Option ℚ :=
  let sg := pySign (pyStrip s)
  (pyFloatBody sg.2).map (fun q => if sg.1 then -q else q)

/-- Truncation toward zero, as Python `int(float)`. -/
def ratTrunc (q : ℚ) : ℤ :=
  if q < 0 then -(((-q).num.toNat / (-q).den : ℕ) : ℤ)
  else ((q.num.toNat / q.den : ℕ) : ℤ)

/-- Python `int(v)`: succeeds on ints, floats (truncating), and integer
strings; `TypeError` on `None`. -/
def pyInt : PyVal → Option ℤ
  | .vint n => some n
  | .vfloat q => some (ratTrunc q)
  | .vstr s => pyIntOfString s
  | .vnone => none

/-- Python `float(v)`: succeeds on ints, floats, and decimal strings;
`TypeError` on `None`. -/
def pyFloat : PyVal → Option ℚ
  | .vint n => some (n : ℚ)
  | .vfloat q => some q
  | .vstr s => pyFloatOfString s
  | .vnone => none

/-- Python `str(v)`; `str(None)` is the text `None`.  The rendering of
ints and floats is abstract here (no theorem depends on its exact
form). -/
def pyStrOf : PyVal → Str
  | .vint n => (toString n).toList
  | .vfloat q => (toString q).toList
  | .vstr s => s
  | .vnone => "None".toList

/-- The element-wise list comprehension `[datatype(value) for value in
values]` guarded by `try/except`: all-or-nothing conversion. -/
def tryMapOpt {α : Type} (f : PyVal → Option α) : List PyVal → Option (List α)
  | [] => some []
  | v :: vs =>
    match f v, tryMapOpt f vs with
    | some a, some rest => some (a :: rest)
    | _, _ => none

/-- The three candidate datatypes, in trial order. -/
inductive PyType where
  | tint
  | tfloat
  | tstr
  deriving DecidableEq, Repr

/-- `best_datatype_for_list`: first of `int`, `float`, `str` that
converts every value (str conversion is total, so the `None` result
requires all three to fail, which never happens). -/
def best_datatype_for_list (values : List PyVal) : Option PyType :=
  if (tryMapOpt pyInt values).isSome then some .tint
  else if (tryMapOpt pyFloat values).isSome then some .tfloat
  else if (tryMapOpt (fun v => some (pyStrOf v)) values).isSome then some .tstr
  else none

/-- Conversion by a chosen datatype. -/
def applyType : PyType → PyVal → Option PyVal
  | .tint, v => (pyInt v).map PyVal.vint
  | .tfloat, v => (pyFloat v).map PyVal.vfloat
  | .tstr, v => some (.vstr (pyStrOf v))

/-- `convert_to_best_datatype`: find the best datatype and convert every
value with it; the `None` branch is the `raise ValueError` path. -/
def convert_to_best_datatype (values : List PyVal) : Option (List PyVal) :=
  match best_datatype_for_list values with
  | none => none
  | some t => tryMapOpt (applyType t) values

/-! ## The dataframe round trip (`entries_to_df` / `df_to_entries`) -/

/-- The pandas cell for a `str`-or-`None` field. -/
def pyValOfOpt : Option Str → PyVal
  | none => .vnone
  | some s => .vstr s

/-- The ten fixed columns of the fasta dataframe, after each column has
been passed through `convert_to_best_datatype`. -/
structure FastaDf where
  db : List PyVal
  unique_identifier : List PyVal
  entry_name : List PyVal
  protein_name : List PyVal
  organism_name : List PyVal
  organism_identifier : List PyVal
  gene_name : List PyVal
  protein_existence : List PyVal
  sequence_version : List PyVal
  protein_sequence : List PyVal
  deriving DecidableEq, Repr

/-- `entries_to_df`: one row per entry via `asdict`, then every column
through the normalizer (whose error would propagate). -/
def entries_to_df (entries : List FastaEntry) : Option FastaDf := do
  let c1 ← convert_to_best_datatype (entries.map (fun e => pyValOfOpt e.db))
  let c2 ← convert_to_best_datatype (entries.map (fun e => pyValOfOpt e.unique_identifier))
  let c3 ← convert_to_best_datatype (entries.map (fun e => pyValOfOpt e.entry_name))
  let c4 ← convert_to_best_datatype (entries.map (fun e => pyValOfOpt e.protein_name))
  let c5 ← convert_to_best_datatype (entries.map (fun e => pyValOfOpt e.organism_name))
  let c6 ← convert_to_best_datatype (entries.map (fun e => pyValOfOpt e.organism_identifier))
  let c7 ← convert_to_best_datatype (entries.map (fun e => pyValOfOpt e.gene_name))
  let c8 ← convert_to_best_datatype (entries.map (fun e => pyValOfOpt e.protein_existence))
  let c9 ← convert_to_best_datatype (entries.map (fun e => pyValOfOpt e.sequence_version))
  let c10 ← convert_to_best_datatype (entries.map (fun e => PyVal.vstr e.protein_sequence))
  pure ⟨c1, c2, c3, c4, c5, c6, c7, c8, c9, c10⟩

/-- A row rebuilt by `df_to_entries`: the Python dataclass performs no
runtime type checking, so each field holds whatever value the
normalized column holds (possibly an `int` or `float`). -/
structure DfEntry where
  db : PyVal
  unique_identifier : PyVal
  entry_name : PyVal
  protein_name : PyVal
  organism_name : PyVal
  organism_identifier : PyVal
  gene_name : PyVal
  protein_existence : PyVal
  sequence_version : PyVal
  protein_sequence : PyVal
  deriving DecidableEq, Repr

/-- Row `i` of the dataframe. -/
def dfRow (d : FastaDf) (i : ℕ) : DfEntry :=
  ⟨d.db.getD i .vnone, d.unique_identifier.getD i .vnone,
   d.entry_name.getD i .vnone, d.protein_name.getD i .vnone,
   d.organism_name.getD i .vnone, d.organism_identifier.getD i .vnone,
   d.gene_name.getD i .vnone, d.protein_existence.getD i .vnone,
   d.sequence_version.getD i .vnone, d.protein_sequence.getD i .vnone⟩

/-- `df_to_entries`: rebuild one entry per row. -/
def df_to_entries (d : FastaDf) : List DfEntry :=
  (List.range d.db.length).map (dfRow d)

/-! ## Definitions written from the claims' words (for comparison with
the code) -/

/-- Removal of one leading `>` only — the tokenizer C8 describes. -/
def removeLeadingGt : Str → Str
  | '>' :: t => t
  | t => t

/-- The header tokenizer exactly as claim C8 words it: strip trailing
whitespace, remove only the leading `>` marker (later `>` characters
preserved), split on single spaces. -/
def claimTokenizeC8 (s : Str) : List Str :=
  splitChar ' ' (removeLeadingGt (pyRstrip s))

/-- The classifier step exactly as claim C4 words it: a token switches
the tag iff it contains `=` at offset 2 (the `XX=` pattern), in which
case the `XX=` prefix is stripped; any other token — including one with
`=` elsewhere — is consumed verbatim under the current tag. -/
def claimProcessC4 : List Str → Str → List (Str × List Str) →
    Except PyErr (List (Str × List Str))
  | [], _, info => .ok info
  | elem :: rest, current_state, info =>
    let step := if elem[2]? = some '=' then (elem.take 2, elem.drop 3)
                else (current_state, elem)
    if step.1 ∈ validTagStrs then
      claimProcessC4 rest step.1 (dictAppend step.1 step.2 info)
    else
      .error .valueError

/-- Claim C4's classifier applied the way `_process_line_elements`
applies the code's classifier. -/
def claimProcessLineElementsC4 (line_elements : List Str) :
    Except PyErr (List (Str × List Str)) :=
  claimProcessC4 (line_elements.drop 1) tagPN []

/-- The serializer exactly as claim C6 words it: a field is emitted if
and only if it is present (non-absent). -/
def claimSerializeC6 (e : FastaEntry) : Str :=
  let optional_fields : List (Str × Option Str) :=
    [ (' ' :: tagPN ++ ['='], e.protein_name),
      (' ' :: tagOS ++ ['='], e.organism_name),
      (' ' :: tagOX ++ ['='], e.organism_identifier),
      (' ' :: tagGN ++ ['='], e.gene_name),
      (' ' :: tagPE ++ ['='], e.protein_existence),
      (' ' :: tagSV ++ ['='], e.sequence_version) ]
  let fasta_header :=
    '>' :: pyFStr e.db ++ '|' :: pyFStr e.unique_identifier
      ++ '|' :: pyFStr e.entry_name
      ++ (optional_fields.map
            (fun kv => if kv.2.isSome then kv.1 ++ kv.2.getD [] else [])).flatten
  fasta_header ++ '\n' :: e.protein_sequence ++ ['\n']

/-! ## An explicit finite-state view of the classifier (amended C4) -/

/-- The six tags as an enum (the explicit finite-state machine the spec
suggests in its design notes). -/
inductive Tag where
  | tPN
  | tOS
  | tOX
  | tGN
  | tPE
  | tSV
  deriving DecidableEq, Repr

/-- The two-letter text of a tag. -/
def tagText : Tag → Str
  | .tPN => tagPN
  | .tOS => tagOS
  | .tOX => tagOX
  | .tGN => tagGN
  | .tPE => tagPE
  | .tSV => tagSV

/-- Parse a two-letter tag string. -/
def tagOfStr (s : Str) : Option Tag :=
  if s = tagPN then some .tPN
  else if s = tagOS then some .tOS
  else if s = tagOX then some .tOX
  else if s = tagGN then some .tGN
  else if s = tagPE then some .tPE
  else if s = tagSV then some .tSV
  else none

/-- Pointwise update of a tag-indexed accumulator. -/
def tagUpd (f : Tag → List Str) (t : Tag) (v : Str) : Tag → List Str :=
  fun t' => if t' = t then f t ++ [v] else f t'

/-- The amended classifier of claim C4, as a finite-state machine over
`Tag`: a token containing `=` anywhere switches the state to the tag
named by its first two characters (failing if they are not a recognized
tag) and contributes the token minus its first three characters; any
other token is consumed verbatim under the current state. -/
def amendedClassifyC4 : List Str → Tag → (Tag → List Str) →
    Option (Tag → List Str)
  | [], _, acc => some acc
  | elem :: rest, cur, acc =>
    if '=' ∈ elem then
      match tagOfStr (elem.take 2) with
      | some t => amendedClassifyC4 rest t (tagUpd acc t (elem.drop 3))
      | none => none
    else amendedClassifyC4 rest cur (tagUpd acc cur elem)

/-- `some` of a non-empty list, `none` for the empty one: how a
tag-indexed accumulator shows up in the token dictionary. -/
def olist (l : List Str) : Option (List Str) :=
  if l.isEmpty then none else some l

/-- Correspondence between a run of the code's classifier and a run of
the finite-state classifier: both fail together, or both succeed with
the same tokens collected under every tag. -/
def classifyRel : Except PyErr (List (Str × List Str)) →
    Option (Tag → List Str) → Prop
  | .error _, none => True
  | .ok info, some acc => ∀ t, dictGet (tagText t) info = olist (acc t)
  | .error _, some _ => False
  | .ok _, none => False

/-! ## Well-formedness for the round trip (amended C1) and header
badness (amended C3) -/

/-- A character allowed in `db`, `unique_identifier`, `entry_name` if
serialization is to invert: no whitespace, no `|`, no `>`. -/
def cleanAtomChar (c : Char) : Bool :=
  !c.isWhitespace && c ≠ '|' && c ≠ '>'

/-- A clean identifier component. -/
def cleanAtom (s : Str) : Bool :=
  s.all cleanAtomChar

/-- An identifier field that is present and clean. -/
def cleanAtomO : Option Str → Bool
  | some s => cleanAtom s
  | none => false

/-- A character allowed in an optional field value: plain spaces are the
only whitespace, and no `>` or `=`. -/
def cleanValChar (c : Char) : Bool :=
  (c = ' ' || !c.isWhitespace) && c ≠ '>' && c ≠ '='

/-- A clean optional-field value: non-empty, clean characters, and not
ending in a space (a trailing space would be stripped by `rstrip`). -/
def cleanVal (s : Str) : Bool :=
  !s.isEmpty && s.all cleanValChar && s.getLast? ≠ some ' '

/-- An optional field that is absent or clean. -/
def cleanOptField : Option Str → Bool
  | none => true
  | some v => cleanVal v

/-- A protein sequence that survives the line loop unchanged: no
newline, no leading `>`, no whitespace at either end. -/
def cleanSeq (s : Str) : Bool :=
  s.all (fun c => c ≠ '\n') &&
  s.head?.all (fun c => !c.isWhitespace && c ≠ '>') &&
  s.getLast?.all (fun c => !c.isWhitespace)

/-- An entry the serialize/parse round trip reproduces exactly. -/
def goodEntry (e : FastaEntry) : Bool :=
  cleanAtomO e.db && cleanAtomO e.unique_identifier &&
  cleanAtomO e.entry_name &&
  cleanOptField e.protein_name && cleanOptField e.organism_name &&
  cleanOptField e.organism_identifier && cleanOptField e.gene_name &&
  cleanOptField e.protein_existence && cleanOptField e.sequence_version &&
  cleanSeq e.protein_sequence

/-- The condition under which `_process_line_elements` raises: some
trailing token contains `=` but its first two characters are not a
recognized tag. -/
def hasBadTagTok (s : Str) : Bool :=
  ((_extract_fasta_header_elements s).drop 1).any
    (fun e => decide ('=' ∈ e) && !(decide (e.take 2 ∈ validTagStrs)))

/-- A line on which the assembler raises (in default mode): a header
whose stripped text has a bad tag token. -/
def isBadHeaderLine (l : Str) : Bool :=
  !(pyStrip l).isEmpty && ((pyStrip l).headI = '>') && hasBadTagTok (pyStrip l)

/-! ## The serialized header, decomposed (for the round-trip proof) -/

/-- One present optional field as a `(tag, value)` pair. -/
def fieldEntry (t : Str) (o : Option Str) : List (Str × Str) :=
  match o with
  | some v => if v.isEmpty then [] else [(t, v)]
  | none => []

/-- The present, non-empty optional fields of an entry, in serialization
order. -/
def presentFields (e : FastaEntry) : List (Str × Str) :=
  fieldEntry tagPN e.protein_name ++ fieldEntry tagOS e.organism_name ++
  fieldEntry tagOX e.organism_identifier ++ fieldEntry tagGN e.gene_name ++
  fieldEntry tagPE e.protein_existence ++ fieldEntry tagSV e.sequence_version

/-- The ` TAG=value` segment of one present field. -/
def segStr (tv : Str × Str) : Str :=
  ' ' :: tv.1 ++ '=' :: tv.2

/-- The header text after the `>` marker. -/
def headerContent (e : FastaEntry) : Str :=
  pyFStr e.db ++ '|' :: pyFStr e.unique_identifier
    ++ '|' :: pyFStr e.entry_name
    ++ ((presentFields e).map segStr).flatten

/-- The full serialized header line. -/
def headerOf (e : FastaEntry) : Str :=
  '>' :: headerContent e

/-- The serializer as claim C6 must be amended: a field is emitted iff
it is present *and* non-empty. -/
def amendedSerializeC6 (e : FastaEntry) : Str :=
  headerOf e ++ '\n' :: e.protein_sequence ++ ['\n']

/-- First-match lookup in a tag/value pair list. -/
def pairLookup (k : Str) : List (Str × Str) → Option Str
  | [] => none
  | (t, v) :: rest => if t = k then some v else pairLookup k rest

/-- The word tokens a present field contributes to the header: its value
is space-split; the first piece rides on the `TAG=` token. -/
def tagValToks (tv : Str × Str) : List Str :=
  (tv.1 ++ '=' :: (splitChar ' ' tv.2).headI) :: (splitChar ' ' tv.2).tail

/-- An entry whose `protein_name` is the *empty string* — present, not
absent — used to separate "present" from "truthy". -/
def entryWithEmptyProteinName : FastaEntry :=
  ⟨some "sp".toList, some "A".toList, some "B".toList, some [],
   none, none, none, none, none, "X".toList⟩

/-- The token dictionary of a header, for stating what `joinedValue`
receives (`none` when classification failed). -/
def headerInfoGet (s : Str) (k : Str) : Option (List Str) :=
  match _process_line_elements (_extract_fasta_header_elements s) with
  | .ok info => dictGet k info
  | .error _ => none

/-- Every token list in the header's dictionary is non-empty (so the
`if v else None` branch of `_join_list_values` is dead). -/
def allValsNonempty (s : Str) : Bool :=
  match _process_line_elements (_extract_fasta_header_elements s) with
  | .ok info => info.all (fun kv => !kv.2.isEmpty)
  | .error _ => true

/-- The leading `db|uid|entry` token of a serialized header. -/
def firstTok (e : FastaEntry) : Str :=
  pyFStr e.db ++ '|' :: pyFStr e.unique_identifier
    ++ '|' :: pyFStr e.entry_name

/-- The space-split word tokens of a serialized header. -/
def headerToks (e : FastaEntry) : List Str :=
  firstTok e :: ((presentFields e).map tagValToks).flatten

/-- The value a present optional field contributes (none when absent or
empty). -/
def presentVal : Option Str → Option Str
  | some v => if v.isEmpty then none else some v
  | none => none

/-! ## Theorems -/

theorem splitChar_ne_nil (c : Char) (xs : Str) : splitChar c xs ≠ [] := by
  cases xs with
  | nil => simp [splitChar]
  | cons x xs => by_cases h : x = c <;> simp [splitChar, h]
theorem splitChar_eq_cons (c : Char) (xs : Str) :
    ∃ w ws, splitChar c xs = w :: ws := by
  cases hs : splitChar c xs with
  | nil => exact absurd hs (splitChar_ne_nil c xs)
  | cons w ws => exact ⟨w, ws, rfl⟩
theorem joinChar_splitChar (c : Char) (xs : Str) :
    joinChar c (splitChar c xs) = xs := by
  induction xs with
  | nil => rfl
  | cons x xs ih =>
    obtain ⟨w, ws, hs⟩ := splitChar_eq_cons c xs
    rw [hs] at ih
    by_cases h : x = c
    · subst h
      simp [splitChar, hs, joinChar, ih]
    · simp only [splitChar, if_neg h, hs, List.headI, List.tail]
      cases ws with
      | nil => simpa [joinChar] using ih
      | cons v vs =>
        simp only [joinChar, List.cons_append] at ih ⊢
        rw [ih]
theorem not_mem_of_mem_splitChar (c : Char) (xs : Str) :
    ∀ t ∈ splitChar c xs, c ∉ t := by
  induction xs with
  | nil => intro t ht; simp [splitChar] at ht; simp [ht]
  | cons x xs ih =>
    intro t ht
    obtain ⟨w, ws, hs⟩ := splitChar_eq_cons c xs
    by_cases h : x = c
    · rw [splitChar, if_pos h, hs] at ht
      rcases List.mem_cons.mp ht with ht | ht
      · simp [ht]
      · exact ih t (hs ▸ ht)
    · rw [splitChar, if_neg h, hs] at ht
      simp only [List.headI, List.tail] at ht
      rcases List.mem_cons.mp ht with ht | ht
      · subst ht
        intro hc
        rcases List.mem_cons.mp hc with hc | hc
        · exact h hc.symm
        · exact ih w (hs ▸ List.mem_cons_self w ws) hc
      · exact ih t (hs ▸ List.mem_cons_of_mem w ht)
theorem splitChar_of_not_mem {c : Char} {xs : Str} (h : c ∉ xs) :
    splitChar c xs = [xs] := by
  induction xs with
  | nil => rfl
  | cons x xs ih =>
    simp only [List.mem_cons, not_or] at h
    rw [splitChar, if_neg (fun hc => h.1 hc.symm), ih h.2]
    rfl
theorem splitChar_append_cons {c : Char} {a : Str} (b : Str) (h : c ∉ a) :
    splitChar c (a ++ c :: b) = a :: splitChar c b := by
  induction a with
  | nil => simp [splitChar]
  | cons x xs ih =>
    simp only [List.mem_cons, not_or] at h
    rw [List.cons_append, splitChar, if_neg (fun hc => h.1 hc.symm), ih h.2]
    rfl
theorem mem_of_mem_splitChar {c : Char} {xs : Str} {t : Str}
    (ht : t ∈ splitChar c xs) : ∀ ch ∈ t, ch ∈ xs := by
  induction xs generalizing t with
  | nil =>
    simp [splitChar] at ht
    simp [ht]
  | cons x xs ih =>
    intro ch hch
    obtain ⟨w, ws, hs⟩ := splitChar_eq_cons c xs
    by_cases h : x = c
    · rw [splitChar, if_pos h, hs] at ht
      rcases List.mem_cons.mp ht with ht | ht
      · subst ht; cases hch
      · exact List.mem_cons_of_mem x (ih (hs ▸ ht) ch hch)
    · rw [splitChar, if_neg h, hs] at ht
      simp only [List.headI, List.tail] at ht
      rcases List.mem_cons.mp ht with ht | ht
      · subst ht
        rcases List.mem_cons.mp hch with hch | hch
        · simp [hch]
        · exact List.mem_cons_of_mem x
            (ih (hs ▸ List.mem_cons_self w ws) ch hch)
      · exact List.mem_cons_of_mem x
          (ih (hs ▸ List.mem_cons_of_mem w ht) ch hch)
theorem splitChar_joinChar {c : Char} :
    ∀ {ts : List Str}, ts ≠ [] → (∀ t ∈ ts, c ∉ t) →
      splitChar c (joinChar c ts) = ts
  | [], h, _ => absurd rfl h
  | [w], _, hmem => by
      rw [joinChar, splitChar_of_not_mem (hmem w (List.mem_cons_self w []))]
  | w :: v :: vs, _, hmem => by
      rw [joinChar,
        splitChar_append_cons _ (hmem w (List.mem_cons_self w (v :: vs))),
        splitChar_joinChar (List.cons_ne_nil v vs)
          (fun t ht => hmem t (List.mem_cons_of_mem w ht))]
theorem dropWhile_eq_self_of_head {p : Char → Bool} :
    ∀ l : Str, (∀ y ∈ l.head?, p y = false) → l.dropWhile p = l
  | [], _ => rfl
  | y :: ys, h => by
      rw [List.dropWhile_cons, h y rfl]
      simp
theorem pyRstrip_eq_self {xs : Str}
    (h : ∀ y ∈ xs.getLast?, y.isWhitespace = false) : pyRstrip xs = xs := by
  rw [pyRstrip, dropWhile_eq_self_of_head, List.reverse_reverse]
  intro y hy
  exact h y (by rwa [List.head?_reverse] at hy)
theorem pyStrip_eq_self {xs : Str}
    (hh : ∀ y ∈ xs.head?, y.isWhitespace = false)
    (hl : ∀ y ∈ xs.getLast?, y.isWhitespace = false) : pyStrip xs = xs := by
  rw [pyStrip, dropWhile_eq_self_of_head xs hh, dropWhile_eq_self_of_head,
    List.reverse_reverse]
  intro y hy
  exact hl y (by rwa [List.head?_reverse] at hy)
theorem pyRstripNl_eq_self {xs : Str} (h : '\n' ∉ xs) : pyRstripNl xs = xs := by
  rw [pyRstripNl, dropWhile_eq_self_of_head, List.reverse_reverse]
  intro y hy
  rw [List.head?_reverse] at hy
  have : y ∈ xs := List.mem_of_mem_getLast? hy
  simp only [decide_eq_false_iff_not]
  intro hc
  exact h (hc ▸ this)
theorem dictGet_dictAppend_same (k : Str) (v : Str) :
    ∀ d, dictGet k (dictAppend k v d) = some ((dictGet k d).getD [] ++ [v])
  | [] => by simp [dictGet, dictAppend]
  | (k', vs) :: rest => by
      by_cases h : k' = k
      · simp [dictGet, dictAppend, h]
      · simp only [dictGet, dictAppend, if_neg h]
        exact dictGet_dictAppend_same k v rest
theorem dictGet_dictAppend_ne {k k' : Str} (v : Str) (h : k' ≠ k) :
    ∀ d, dictGet k' (dictAppend k v d) = dictGet k' d
  | [] => by
      simp only [dictAppend, dictGet]
      rw [if_neg (fun hc : k = k' => h hc.symm)]
  | (k'', vs) :: rest => by
      by_cases hk : k'' = k
      · subst hk
        simp only [dictAppend, if_pos rfl, dictGet]
        rw [if_neg (fun hc : k'' = k' => h hc.symm),
          if_neg (fun hc : k'' = k' => h hc.symm)]
      · simp only [dictAppend, if_neg hk, dictGet]
        by_cases hk' : k'' = k'
        · rw [if_pos hk', if_pos hk']
        · rw [if_neg hk', if_neg hk']
          exact dictGet_dictAppend_ne v h rest
theorem dictVals_ne_nil_dictAppend {k : Str} {v : Str} {d : List (Str × List Str)}
    (h : ∀ k' vs, dictGet k' d = some vs → vs ≠ []) :
    ∀ k' vs, dictGet k' (dictAppend k v d) = some vs → vs ≠ [] := by
  intro k' vs hget
  by_cases hk : k' = k
  · subst hk
    rw [dictGet_dictAppend_same] at hget
    cases hget
    simp
  · rw [dictGet_dictAppend_ne v hk] at hget
    exact h k' vs hget

/-! ### Claim C9 (`get_lines` error behavior) -/

/-- C9: the claim says an input of unsupported type fails with the
`UnsupportedInput` error (`ValueError`, per the docstring of
`get_lines`).  The code's final `else` branch instead iterates its
argument, so a non-iterable input (e.g. an `int`) dies with `TypeError`
from the `for` loop, and no branch of `get_lines` ever raises
`ValueError`: the code contradicts its own docstring. -/
theorem C9_get_lines_never_raises_valueError :
    get_lines .nonIterable = .error .typeError ∧
    ∀ inp : LineInput, get_lines inp ≠ .error .valueError := by
  refine ⟨rfl, ?_⟩
  intro inp
  cases inp with
  | pathOrText s existsAsPath fileRawLines =>
    cases existsAsPath <;> simp [get_lines]
  | textStream rawLines => simp [get_lines]
  | chunkIter chunks => simp [get_lines]
  | nonIterable => simp [get_lines]

/-! ### Claim C8 (header tokenizer) -/

/-- C8 counterexample: the claim says only the leading `>` is removed
and a later `>` is preserved in its token; on the header `>a>b c` the
code's `.replace(">", "")` also removes the inner `>`, so the code
tokenizer and the claim's tokenizer disagree. -/
theorem C8_cex_inner_gt_removed :
    _extract_fasta_header_elements ">a>b c".toList
      ≠ claimTokenizeC8 ">a>b c".toList := by decide

/-- C8 amended: the tokenizer strips trailing whitespace, removes
**every** occurrence of `>` (not only the leading marker), and splits
the remainder on single spaces: joining the tokens with single spaces
recovers exactly the rstripped line with all `>` characters deleted,
and no token contains `>` or a space. -/
theorem C8_amended_tokenizer (s : Str) :
    joinChar ' ' (_extract_fasta_header_elements s)
      = (pyRstrip s).filter (fun c => c ≠ '>') ∧
    ∀ t ∈ _extract_fasta_header_elements s, '>' ∉ t ∧ ' ' ∉ t := by
  refine ⟨joinChar_splitChar ' ' _, ?_⟩
  intro t ht
  refine ⟨?_, not_mem_of_mem_splitChar ' ' _ t ht⟩
  intro hgt
  have hmem := mem_of_mem_splitChar ht '>' hgt
  have hflt := (List.mem_filter.mp hmem).2
  simp at hflt

/-- C8 witness: the amended tokenizer property at a concrete header. -/
theorem C8_amended_tokenizer_witness :
    joinChar ' ' (_extract_fasta_header_elements ">sp|a|b OS=x y".toList)
      = (pyRstrip ">sp|a|b OS=x y".toList).filter (fun c => c ≠ '>') ∧
    ∀ t ∈ _extract_fasta_header_elements ">sp|a|b OS=x y".toList,
      '>' ∉ t ∧ ' ' ∉ t :=
  C8_amended_tokenizer ">sp|a|b OS=x y".toList

/-! ### Claim C6 (record serializer) -/

theorem optSeg_eq (tag : Str) (o : Option Str) :
    (if pyTruthy o = true then ' ' :: (tag ++ '=' :: o.getD []) else ([] : Str))
      = (List.map segStr (fieldEntry tag o)).flatten := by
  cases o with
  | none => rfl
  | some v =>
    by_cases hv : v.isEmpty
    · simp [pyTruthy, fieldEntry, hv]
    · simp [pyTruthy, fieldEntry, segStr, hv]

theorem serialize_eq_headerOf (e : FastaEntry) :
    serialize e = headerOf e ++ '\n' :: e.protein_sequence ++ ['\n'] := by
  simp only [serialize, headerOf, headerContent, presentFields,
    List.map_cons, List.map_nil, List.flatten_cons, List.flatten_nil,
    List.map_append, List.flatten_append, List.append_assoc,
    List.cons_append, List.append_nil, List.nil_append]
  simp only [optSeg_eq]

/-- C6 counterexample: the claim says a field is emitted if and only if
it is present; `entryWithEmptyProteinName` has `protein_name` present
(the empty string, not the absent sentinel), yet `serialize` emits no
` PN=` for it, so the code serializer and the claim's serializer
disagree on this entry. -/
theorem C6_cex_present_empty_field_not_emitted :
    serialize entryWithEmptyProteinName
      ≠ claimSerializeC6 entryWithEmptyProteinName := by decide

/-- C6 amended: serialization emits `>{db}|{unique_identifier}|{entry_name}`
(absent `db`/`entry_name` rendering as the literal text `None` between
the pipes), then ` XX=value` for each optional field in the fixed order
if and only if that field is present **and non-empty** (an absent or
empty-string field contributes nothing), then the sequence on its own
line with a trailing newline. -/
theorem C6_amended_serializer (e : FastaEntry) :
    serialize e = amendedSerializeC6 e :=
  serialize_eq_headerOf e

/-- C6 witness: the amended serializer shape at a concrete entry with a
`None` db, an empty-string field, and a present field. -/
theorem C6_amended_serializer_witness :
    serialize ⟨none, some "A".toList, some "B".toList, some [],
      some "Homo sapiens".toList, none, none, none, none, "SEQ".toList⟩
      = amendedSerializeC6 ⟨none, some "A".toList, some "B".toList, some [],
      some "Homo sapiens".toList, none, none, none, none, "SEQ".toList⟩ :=
  C6_amended_serializer _

/-! ### Claim C2 (optional fields: non-empty or absent) -/

theorem mem_dictAppend_ne_nil {k : Str} {v : Str} :
    ∀ {d : List (Str × List Str)}, (∀ kv ∈ d, kv.2 ≠ []) →
      ∀ kv ∈ dictAppend k v d, kv.2 ≠ ([] : List Str)
  | [], _, kv, hkv => by
      simp only [dictAppend, List.mem_singleton] at hkv
      subst hkv
      simp
  | (k', vs) :: rest, h, kv, hkv => by
      by_cases hk : k' = k
      · rw [dictAppend, if_pos hk] at hkv
        rcases List.mem_cons.mp hkv with h1 | h1
        · subst h1; simp
        · exact h kv (List.mem_cons_of_mem _ h1)
      · rw [dictAppend, if_neg hk] at hkv
        rcases List.mem_cons.mp hkv with h1 | h1
        · subst h1
          exact h (k', vs) (List.mem_cons_self _ _)
        · exact mem_dictAppend_ne_nil
            (fun kv2 hkv2 => h kv2 (List.mem_cons_of_mem _ hkv2)) kv h1

theorem processElems_vals_ne_nil :
    ∀ (elems : List Str) (st : Str) (info info' : List (Str × List Str)),
      (∀ kv ∈ info, kv.2 ≠ []) →
      processElems elems st info = .ok info' →
      ∀ kv ∈ info', kv.2 ≠ ([] : List Str)
  | [], _, info, info', h, heq => by
      simp only [processElems] at heq
      cases heq
      exact h
  | elem :: rest, st, info, info', h, heq => by
      simp only [processElems] at heq
      split at heq <;> split at heq
      all_goals
        first
        | cases heq
        | exact processElems_vals_ne_nil rest _ _ info'
            (mem_dictAppend_ne_nil h) heq

theorem dictGet_mem : ∀ {k : Str} {d : List (Str × List Str)} {vs : List Str},
    dictGet k d = some vs → ∃ k0, (k0, vs) ∈ d
  | k, [], vs, h => by simp [dictGet] at h
  | k, (k', vs') :: rest, vs, h => by
      rw [dictGet] at h
      by_cases hk : k' = k
      · rw [if_pos hk] at h
        cases h
        exact ⟨k', List.mem_cons_self _ _⟩
      · rw [if_neg hk] at h
        obtain ⟨k0, hk0⟩ := dictGet_mem h
        exact ⟨k0, List.mem_cons_of_mem _ hk0⟩

theorem joinedValue_eq_map_join {info : List (Str × List Str)}
    (h : ∀ kv ∈ info, kv.2 ≠ []) (k : Str) :
    joinedValue (dictGet k info) = (dictGet k info).map (joinChar ' ') := by
  cases hd : dictGet k info with
  | none => rfl
  | some vs =>
    obtain ⟨k0, hk0⟩ := dictGet_mem hd
    have hne : vs ≠ [] := h (k0, vs) hk0
    rw [joinedValue, if_neg (by simpa [List.isEmpty_iff] using hne)]
    rfl

/-- C2 counterexample: the claim says an empty string is never stored in
an optional field; on the accepted header `>sp|A|B PN=` the bare `PN=`
token contributes the empty token, and the parsed entry stores
`protein_name` as the **empty string** (present, not absent). -/
theorem C2_cex_empty_string_stored :
    _fasta_str_to_entry ">sp|A|B PN=".toList
      = .ok (⟨some "sp".toList, some "A".toList, some "B".toList, some [],
             none, none, none, none, none, []⟩, false) := by decide

/-- C2 amended: for every accepted header, a tag that collects no tokens
yields the absent sentinel, and each present optional field is exactly
the single-space join of the (each possibly empty) tokens collected
under its tag — so an empty **string** is stored precisely when a tag's
collected tokens are all empty (e.g. a bare `PN=` token), and the
`None`-for-empty-token-list branch of `_join_list_values` is dead
because every collected token list is non-empty. -/
theorem C2_amended_fields (s : Str) (e : FastaEntry) (w : Bool)
    (h : _fasta_str_to_entry s = .ok (e, w)) :
    allValsNonempty s = true ∧
    e.protein_name = (headerInfoGet s tagPN).map (joinChar ' ') ∧
    e.organism_name = (headerInfoGet s tagOS).map (joinChar ' ') ∧
    e.organism_identifier = (headerInfoGet s tagOX).map (joinChar ' ') ∧
    e.gene_name = (headerInfoGet s tagGN).map (joinChar ' ') ∧
    e.protein_existence = (headerInfoGet s tagPE).map (joinChar ' ') ∧
    e.sequence_version = (headerInfoGet s tagSV).map (joinChar ' ') := by
  simp only [_fasta_str_to_entry, bind, Except.bind, pure, Except.pure] at h
  cases hii : _extract_initial_info (_extract_fasta_header_elements s) with
  | error err => rw [hii] at h; cases h
  | ok ii =>
    rw [hii] at h
    cases hproc : _process_line_elements (_extract_fasta_header_elements s) with
    | error err => rw [hproc] at h; cases h
    | ok info =>
      rw [hproc] at h
      have hvals : ∀ kv ∈ info, kv.2 ≠ [] :=
        processElems_vals_ne_nil _ _ [] info (by intro kv hkv; cases hkv)
          (by rw [_process_line_elements] at hproc; exact hproc)
      injection h with h'
      rw [Prod.mk.injEq] at h'
      obtain ⟨he, hw⟩ := h'
      subst he
      refine ⟨?_, ?_, ?_, ?_, ?_, ?_, ?_⟩
      · rw [allValsNonempty]
        simp only [hproc]
        rw [List.all_eq_true]
        intro kv hkv
        simpa [List.isEmpty_iff] using hvals kv hkv
      all_goals
        simp only [headerInfoGet, hproc]
        exact joinedValue_eq_map_join hvals _

/-- C2 witness: the amended field characterization at a concrete header
with one present tag. -/
theorem C2_amended_fields_witness :
    allValsNonempty ">a|b|c PN=x".toList = true ∧
    (some "x".toList : Option Str)
      = (headerInfoGet ">a|b|c PN=x".toList tagPN).map (joinChar ' ') ∧
    (none : Option Str)
      = (headerInfoGet ">a|b|c PN=x".toList tagOS).map (joinChar ' ') ∧
    (none : Option Str)
      = (headerInfoGet ">a|b|c PN=x".toList tagOX).map (joinChar ' ') ∧
    (none : Option Str)
      = (headerInfoGet ">a|b|c PN=x".toList tagGN).map (joinChar ' ') ∧
    (none : Option Str)
      = (headerInfoGet ">a|b|c PN=x".toList tagPE).map (joinChar ' ') ∧
    (none : Option Str)
      = (headerInfoGet ">a|b|c PN=x".toList tagSV).map (joinChar ' ') :=
  C2_amended_fields ">a|b|c PN=x".toList
    ⟨some "a".toList, some "b".toList, some "c".toList, some "x".toList,
     none, none, none, none, none, []⟩ false (by decide)

/-! ### Claim C5 (wrong pipe count recovery) -/

/-- C5: when the leading token splits on `|` into any count other than 3,
`_extract_initial_info` sets `db` and `entry_name` to the absent
sentinel, keeps the **entire original token** as `unique_identifier`,
raises only a warning (`warned = true`, no error), and — the second
conjunct — a header line whose parse succeeds is handled identically by
the assembler in default mode and in skip mode: the open entry is
yielded and processing continues with the new entry. -/
theorem C5_malformed_token_recovery :
    (∀ (first : Str) (rest : List Str), first ≠ [] →
      (splitChar '|' first).length ≠ 3 →
      _extract_initial_info (first :: rest)
        = .ok ⟨none, some first, none, true⟩) ∧
    (∀ (skip_error : Bool) (l : Str) (rest : List Str)
       (cur : Option FastaEntry) (e : FastaEntry) (w : Bool),
      _fasta_str_to_entry (pyStrip l) = .ok (e, w) →
      (pyStrip l).isEmpty = false →
      (pyStrip l).headI = '>' →
      fastaLinesToEntries skip_error (l :: rest) cur
        = (cur.toList ++ (fastaLinesToEntries skip_error rest (some e)).1,
           (fastaLinesToEntries skip_error rest (some e)).2)) := by
  constructor
  · intro first rest hne hcount
    have hlen : 1 ≤ (splitChar '|' first).length :=
      List.length_pos.mpr (splitChar_ne_nil _ _)
    simp only [_extract_initial_info, List.headI]
    rw [if_neg hcount, if_pos hlen]
  · intro skip_error l rest cur e w hok hne hgt
    simp only [fastaLinesToEntries, hne, hgt, hok, if_true, if_false,
      Bool.false_eq_true, ite_false, ite_true]

/-- C5 witness: the spec's malformed token (4 pipe-split parts) at the
extractor, and the same header handled by the assembler. -/
theorem C5_malformed_token_recovery_witness :
    _extract_initial_info ["sp|A0A087X1C5||CP2D7_HUMAN".toList]
      = .ok ⟨none, some "sp|A0A087X1C5||CP2D7_HUMAN".toList, none, true⟩ ∧
    fastaLinesToEntries false [">sp|A0A087X1C5||CP2D7_HUMAN".toList] none
      = ((none : Option FastaEntry).toList ++
          (fastaLinesToEntries false []
            (some ⟨none, some "sp|A0A087X1C5||CP2D7_HUMAN".toList, none,
                   none, none, none, none, none, none, []⟩)).1,
         (fastaLinesToEntries false []
            (some ⟨none, some "sp|A0A087X1C5||CP2D7_HUMAN".toList, none,
                   none, none, none, none, none, none, []⟩)).2) :=
  ⟨C5_malformed_token_recovery.1 "sp|A0A087X1C5||CP2D7_HUMAN".toList []
      (by decide) (by decide),
   C5_malformed_token_recovery.2 false ">sp|A0A087X1C5||CP2D7_HUMAN".toList
      [] none _ true (by decide) (by decide) (by decide)⟩

/-! ### Claim C4 (tag-switch rule of the classifier) -/

theorem tagText_mem_validTagStrs (t : Tag) : tagText t ∈ validTagStrs := by
  cases t <;> decide

theorem tagText_inj {t u : Tag} : tagText t = tagText u → t = u := by
  cases t <;> cases u <;> decide

theorem tagOfStr_some_eq {s : Str} {t : Tag} (h : tagOfStr s = some t) :
    s = tagText t := by
  unfold tagOfStr at h
  split_ifs at h with h1 h2 h3 h4 h5 h6 <;> cases h <;> assumption

theorem validTag_has_tagOfStr {s : Str} (h : s ∈ validTagStrs) :
    ∃ t, tagOfStr s = some t := by
  simp only [validTagStrs, List.mem_cons, List.not_mem_nil, or_false] at h
  rcases h with h | h | h | h | h | h <;> subst h
  · exact ⟨.tPN, by decide⟩
  · exact ⟨.tOS, by decide⟩
  · exact ⟨.tOX, by decide⟩
  · exact ⟨.tGN, by decide⟩
  · exact ⟨.tPE, by decide⟩
  · exact ⟨.tSV, by decide⟩

theorem olist_getD (l : List Str) : (olist l).getD [] = l := by
  cases l <;> simp [olist]

theorem olist_append_singleton (l : List Str) (v : Str) :
    olist (l ++ [v]) = some (l ++ [v]) := by
  simp [olist]

theorem processElems_classifyRel :
    ∀ (elems : List Str) (t : Tag) (info : List (Str × List Str))
      (acc : Tag → List Str),
      (∀ u, dictGet (tagText u) info = olist (acc u)) →
      classifyRel (processElems elems (tagText t) info)
        (amendedClassifyC4 elems t acc)
  | [], _, info, acc, hinv => by
      simp only [processElems, amendedClassifyC4, classifyRel]
      exact hinv
  | elem :: rest, t, info, acc, hinv => by
      have hupd : ∀ (t' : Tag) (v : Str) (u : Tag),
          dictGet (tagText u) (dictAppend (tagText t') v info)
            = olist (tagUpd acc t' v u) := by
        intro t' v u
        by_cases hu : u = t'
        · subst hu
          rw [dictGet_dictAppend_same, hinv u, olist_getD, tagUpd,
            if_pos rfl, olist_append_singleton]
        · have hne : tagText u ≠ tagText t' := fun hc => hu (tagText_inj hc)
          rw [dictGet_dictAppend_ne _ hne, hinv u, tagUpd, if_neg hu]
      by_cases he : '=' ∈ elem
      · cases hts : tagOfStr (elem.take 2) with
        | some t' =>
          have hstr : elem.take 2 = tagText t' := tagOfStr_some_eq hts
          have hmem : elem.take 2 ∈ validTagStrs := by
            rw [hstr]; exact tagText_mem_validTagStrs t'
          simp only [processElems, amendedClassifyC4, if_pos he, hts,
            if_pos hmem]
          rw [hstr]
          exact processElems_classifyRel rest t' _ _ (hupd t' (elem.drop 3))
        | none =>
          have hmem : elem.take 2 ∉ validTagStrs := by
            intro hc
            obtain ⟨t', ht'⟩ := validTag_has_tagOfStr hc
            rw [hts] at ht'
            cases ht'
          simp only [processElems, amendedClassifyC4, if_pos he, hts,
            if_neg hmem]
          exact trivial
      · have hmem : tagText t ∈ validTagStrs := tagText_mem_validTagStrs t
        simp only [processElems, amendedClassifyC4, if_neg he, if_pos hmem]
        exact processElems_classifyRel rest t _ _ (hupd t elem)

/-- C4 counterexample: the claim says a token with `=` at an offset
other than 2 is consumed verbatim under the current tag; on the token
`a=b` (offset 1) the code instead switches the state to `a=` and raises
`ValueError`, while the claim's classifier consumes it verbatim under
`PN`. -/
theorem C4_cex_eq_anywhere_switches :
    _process_line_elements ["hdr".toList, "a=b".toList]
      = .error .valueError ∧
    claimProcessLineElementsC4 ["hdr".toList, "a=b".toList]
      = .ok [(tagPN, ["a=b".toList])] := by decide

/-- C4 amended: for every token after the first, the classifier switches
the current tag if and only if the token contains `=` **anywhere**; the
new tag is the token's first two characters (a hard failure when they
are not one of the six recognized tags) and the token's first three
characters are stripped before use; a token without `=` is consumed
verbatim under the current tag, which persists until the next switch.
This is stated as a refinement: the code's string-state classifier and
the explicit finite-state machine with exactly this transition rule
fail together or collect exactly the same tokens under every tag. -/
theorem C4_amended_classifier (line_elements : List Str) :
    classifyRel (_process_line_elements line_elements)
      (amendedClassifyC4 (line_elements.drop 1) .tPN (fun _ => [])) :=
  processElems_classifyRel (line_elements.drop 1) .tPN [] (fun _ => [])
    (fun _ => rfl)

/-- C4 witness: the refinement at a concrete header token list. -/
theorem C4_amended_classifier_witness :
    classifyRel
      (_process_line_elements
        ["h".toList, "OS=Homo".toList, "sapiens".toList, "OX=9606".toList])
      (amendedClassifyC4
        (["h".toList, "OS=Homo".toList, "sapiens".toList,
          "OX=9606".toList].drop 1) .tPN (fun _ => [])) :=
  C4_amended_classifier
    ["h".toList, "OS=Homo".toList, "sapiens".toList, "OX=9606".toList]

/-! ### Claim C3 (when parsing raises; skip-mode) -/

theorem extract_initial_info_ok (les : List Str) :
    ∃ ii, _extract_initial_info les = .ok ii := by
  simp only [_extract_initial_info]
  by_cases h3 : (splitChar '|' les.headI).length = 3
  · rw [if_pos h3]
    exact ⟨_, rfl⟩
  · have hlen : 1 ≤ (splitChar '|' les.headI).length :=
      List.length_pos.mpr (splitChar_ne_nil _ _)
    rw [if_neg h3, if_pos hlen]
    exact ⟨_, rfl⟩

theorem processElems_ok_of_good :
    ∀ (elems : List Str) (st : Str) (info : List (Str × List Str)),
      st ∈ validTagStrs →
      (∀ e ∈ elems, '=' ∈ e → e.take 2 ∈ validTagStrs) →
      ∃ info', processElems elems st info = .ok info'
  | [], _, info, _, _ => ⟨info, rfl⟩
  | elem :: rest, st, info, hst, hgood => by
      by_cases he : '=' ∈ elem
      · have htake : elem.take 2 ∈ validTagStrs :=
          hgood elem (List.mem_cons_self _ _) he
        simp only [processElems, if_pos he, if_pos htake]
        exact processElems_ok_of_good rest _ _ htake
          (fun x hx => hgood x (List.mem_cons_of_mem _ hx))
      · simp only [processElems, if_neg he, if_pos hst]
        exact processElems_ok_of_good rest _ _ hst
          (fun x hx => hgood x (List.mem_cons_of_mem _ hx))

theorem processElems_err_of_bad :
    ∀ (elems : List Str) (st : Str) (info : List (Str × List Str)),
      (∃ e ∈ elems, '=' ∈ e ∧ e.take 2 ∉ validTagStrs) →
      processElems elems st info = .error .valueError
  | [], _, _, h => by
      obtain ⟨e, he, _⟩ := h
      cases he
  | elem :: rest, st, info, h => by
      by_cases he : '=' ∈ elem
      · by_cases htake : elem.take 2 ∈ validTagStrs
        · simp only [processElems, if_pos he, if_pos htake]
          obtain ⟨x, hx, hxe, hxt⟩ := h
          rcases List.mem_cons.mp hx with hx1 | hx1
          · exact absurd htake (hx1 ▸ hxt)
          · exact processElems_err_of_bad rest _ _ ⟨x, hx1, hxe, hxt⟩
        · simp only [processElems, if_pos he, if_neg htake]
      · by_cases hst : st ∈ validTagStrs
        · simp only [processElems, if_neg he, if_pos hst]
          obtain ⟨x, hx, hxe, hxt⟩ := h
          rcases List.mem_cons.mp hx with hx1 | hx1
          · exact absurd hxe (hx1 ▸ he)
          · exact processElems_err_of_bad rest _ _ ⟨x, hx1, hxe, hxt⟩
        · simp only [processElems, if_neg he, if_neg hst]

theorem fasta_str_to_entry_err_or_ok (s : Str) :
    (hasBadTagTok s = true ∧ _fasta_str_to_entry s = .error .valueError) ∨
    (hasBadTagTok s = false ∧ ∃ p, _fasta_str_to_entry s = .ok p) := by
  obtain ⟨ii, hii⟩ := extract_initial_info_ok (_extract_fasta_header_elements s)
  cases hbad : hasBadTagTok s with
  | true =>
    left
    refine ⟨rfl, ?_⟩
    rw [hasBadTagTok, List.any_eq_true] at hbad
    obtain ⟨e, he, hcond⟩ := hbad
    simp only [Bool.and_eq_true, decide_eq_true_eq, Bool.not_eq_true',
      decide_eq_false_iff_not] at hcond
    have hproc : _process_line_elements (_extract_fasta_header_elements s)
        = .error .valueError := by
      rw [_process_line_elements]
      exact processElems_err_of_bad _ _ _ ⟨e, he, hcond.1, hcond.2⟩
    simp only [_fasta_str_to_entry, bind, Except.bind, hii, hproc]
  | false =>
    right
    refine ⟨rfl, ?_⟩
    rw [hasBadTagTok, List.any_eq_false] at hbad
    have hgood : ∀ e ∈ (_extract_fasta_header_elements s).drop 1,
        '=' ∈ e → e.take 2 ∈ validTagStrs := by
      intro e he hme
      have := hbad e he
      simp only [Bool.and_eq_true, decide_eq_true_eq, Bool.not_eq_true',
        decide_eq_false_iff_not, not_and] at this
      by_contra hc
      simp [hme, hc] at this
    obtain ⟨info, hproc⟩ := processElems_ok_of_good
      ((_extract_fasta_header_elements s).drop 1) tagPN [] (by decide) hgood
    refine ⟨(⟨ii.db, ii.unique_identifier, ii.entry_name,
      joinedValue (dictGet tagPN info), joinedValue (dictGet tagOS info),
      joinedValue (dictGet tagOX info), joinedValue (dictGet tagGN info),
      joinedValue (dictGet tagPE info), joinedValue (dictGet tagSV info),
      []⟩, ii.warned), ?_⟩
    simp only [_fasta_str_to_entry, bind, Except.bind, hii,
      _process_line_elements, hproc, pure, Except.pure]

theorem exists_bad_cons {l : Str} {rest : List Str}
    (h : isBadHeaderLine l = false) :
    (∃ x ∈ l :: rest, isBadHeaderLine x = true)
      ↔ ∃ x ∈ rest, isBadHeaderLine x = true := by
  constructor
  · rintro ⟨x, hx, hb⟩
    rcases List.mem_cons.mp hx with hx1 | hx1
    · rw [hx1] at hb
      rw [h] at hb
      cases hb
    · exact ⟨x, hx1, hb⟩
  · rintro ⟨x, hx, hb⟩
    exact ⟨x, List.mem_cons_of_mem _ hx, hb⟩

theorem fastaLines_default_err_iff :
    ∀ (lines : List Str) (cur : Option FastaEntry),
      ((fastaLinesToEntries false lines cur).2 ≠ none
        ↔ ∃ x ∈ lines, isBadHeaderLine x = true)
  | [], cur => by simp [fastaLinesToEntries]
  | l :: rest, cur => by
      by_cases hemp : (pyStrip l).isEmpty
      · have hbadl : isBadHeaderLine l = false := by
          simp [isBadHeaderLine, hemp]
        simp only [fastaLinesToEntries, hemp, if_true]
        rw [fastaLines_default_err_iff rest cur, exists_bad_cons hbadl]
      · rw [Bool.not_eq_true] at hemp
        by_cases hgt : (pyStrip l).headI = '>'
        · rcases fasta_str_to_entry_err_or_ok (pyStrip l) with
            ⟨hbad, herr⟩ | ⟨hgood, p, hok⟩
          · have hbadl : isBadHeaderLine l = true := by
              simp [isBadHeaderLine, hemp, hgt, hbad]
            simp only [fastaLinesToEntries, hemp, hgt, herr,
              Bool.false_eq_true, if_false, if_pos rfl, if_true, ite_true]
            constructor
            · intro _
              exact ⟨l, List.mem_cons_self _ _, hbadl⟩
            · intro _
              simp
          · have hbadl : isBadHeaderLine l = false := by
              simp [isBadHeaderLine, hgood]
            obtain ⟨e, w⟩ := p
            simp only [fastaLinesToEntries, hemp, hgt, hok,
              Bool.false_eq_true, if_false, if_pos rfl, if_true, ite_true]
            rw [fastaLines_default_err_iff rest (some e), exists_bad_cons hbadl]
        · have hbadl : isBadHeaderLine l = false := by
            simp [isBadHeaderLine, hgt]
          simp only [fastaLinesToEntries, hemp, hgt, Bool.false_eq_true,
            if_false]
          cases cur with
          | none =>
            rw [fastaLines_default_err_iff rest none, exists_bad_cons hbadl]
          | some e =>
            rw [fastaLines_default_err_iff rest _, exists_bad_cons hbadl]

theorem fastaLines_skip_no_err :
    ∀ (lines : List Str) (cur : Option FastaEntry),
      (fastaLinesToEntries true lines cur).2 = none
  | [], cur => rfl
  | l :: rest, cur => by
      by_cases hemp : (pyStrip l).isEmpty
      · simp only [fastaLinesToEntries, hemp, if_true]
        exact fastaLines_skip_no_err rest cur
      · rw [Bool.not_eq_true] at hemp
        by_cases hgt : (pyStrip l).headI = '>'
        · cases hfa : _fasta_str_to_entry (pyStrip l) with
          | ok p =>
            obtain ⟨e, w⟩ := p
            simp only [fastaLinesToEntries, hemp, hgt, hfa,
              Bool.false_eq_true, if_false, if_pos rfl, if_true, ite_true]
            exact fastaLines_skip_no_err rest (some e)
          | error err =>
            simp only [fastaLinesToEntries, hemp, hgt, hfa,
              Bool.false_eq_true, if_false, if_pos rfl, if_true, ite_true]
            exact fastaLines_skip_no_err rest none
        · simp only [fastaLinesToEntries, hemp, hgt, Bool.false_eq_true,
            if_false]
          cases cur with
          | none => exact fastaLines_skip_no_err rest none
          | some e => exact fastaLines_skip_no_err rest _

theorem fastaLines_skip_drops_bad {l : Str} (rest : List Str)
    (hbad : isBadHeaderLine l = true) :
    fastaLinesToEntries true (l :: rest) none
      = fastaLinesToEntries true rest none := by
  simp only [isBadHeaderLine, Bool.and_eq_true, Bool.not_eq_true',
    decide_eq_true_eq] at hbad
  obtain ⟨⟨hemp, hgt⟩, htok⟩ := hbad
  rcases fasta_str_to_entry_err_or_ok (pyStrip l) with
    ⟨_, herr⟩ | ⟨hgood, _⟩
  · simp only [fastaLinesToEntries, hemp, hgt, herr, Bool.false_eq_true,
      if_false, if_pos rfl, if_true, ite_true, Option.toList_none,
      List.nil_append]
  · rw [htok] at hgood
    cases hgood

/-- C3 counterexample: the claim says a bare `>` header raises
`InvalidHeader` in default mode; in the code `"".split("|")` yields
`[""]`, whose length satisfies the `>= 1` recovery guard, so the bare
header is *accepted*: default-mode parsing of `[">"]` returns one entry
with an **empty** `unique_identifier` (plus a warning) and no error —
the `raise ValueError` branch of `_extract_initial_info` is
unreachable. -/
theorem C3_cex_bare_gt_does_not_raise :
    fastaLinesToEntries false [">".toList] none
      = ([⟨none, some [], none, none, none, none, none, none, none, []⟩],
         none) := by decide

/-- C3 amended: in default mode the parse errors (with `ValueError`)
exactly when some line is a header whose trailing tokens include a
token containing `=` whose first two characters are outside
`{PN,OS,OX,GN,PE,SV}` — an empty leading token does **not** raise (it
takes the warning-recovery path) — and in skip-mode no error ever
escapes: a malformed header is dropped without being yielded and
parsing continues with the remaining lines. -/
theorem C3_amended_error_behavior (lines : List Str)
    (cur : Option FastaEntry) (l : Str) (rest : List Str) :
    ((fastaLinesToEntries false lines none).2 ≠ none
      ↔ ∃ x ∈ lines, isBadHeaderLine x = true) ∧
    ((fastaLinesToEntries true lines cur).2 = none) ∧
    (isBadHeaderLine l = true →
      fastaLinesToEntries true (l :: rest) none
        = fastaLinesToEntries true rest none) :=
  ⟨fastaLines_default_err_iff lines none,
   fastaLines_skip_no_err lines cur,
   fun hbad => fastaLines_skip_drops_bad rest hbad⟩

/-- C3 witness: a header with the unknown tag `ZZ=` errors in default
mode, never errors in skip-mode, and is dropped in skip-mode with
parsing continuing to the following good header. -/
theorem C3_amended_error_behavior_witness :
    ((fastaLinesToEntries false [">sp|a|b ZZ=foo".toList] none).2 ≠ none) ∧
    ((fastaLinesToEntries true
        [">sp|a|b ZZ=foo".toList, ">x|y|z".toList] none).2 = none) ∧
    (fastaLinesToEntries true
        [">sp|a|b ZZ=foo".toList, ">x|y|z".toList] none
      = fastaLinesToEntries true [">x|y|z".toList] none) := by
  have h := C3_amended_error_behavior [">sp|a|b ZZ=foo".toList] none
    ">sp|a|b ZZ=foo".toList [">x|y|z".toList]
  have h2 := C3_amended_error_behavior
    [">sp|a|b ZZ=foo".toList, ">x|y|z".toList] none
    ">sp|a|b ZZ=foo".toList [">x|y|z".toList]
  exact ⟨h.1.mpr ⟨">sp|a|b ZZ=foo".toList, List.mem_cons_self _ _, by decide⟩,
    h2.2.1, h2.2.2 (by decide)⟩

/-! ### Claim C7 (datatype normalizer idempotence) -/

theorem tryMapOpt_eq_none_iff {α : Type} {f : PyVal → Option α} :
    ∀ {vs : List PyVal}, tryMapOpt f vs = none ↔ ∃ v ∈ vs, f v = none
  | [] => by simp [tryMapOpt]
  | v :: vs => by
      cases hf : f v with
      | none =>
        simp only [tryMapOpt, hf]
        constructor
        · intro _
          exact ⟨v, List.mem_cons_self _ _, hf⟩
        · intro _
          trivial
      | some a =>
        cases ht : tryMapOpt f vs with
        | none =>
          simp only [tryMapOpt, hf, ht]
          constructor
          · intro _
            obtain ⟨x, hx, hfx⟩ := tryMapOpt_eq_none_iff.mp ht
            exact ⟨x, List.mem_cons_of_mem _ hx, hfx⟩
          · intro _
            trivial
        | some rest =>
          simp only [tryMapOpt, hf, ht]
          constructor
          · intro hc
            cases hc
          · rintro ⟨x, hx, hfx⟩
            rcases List.mem_cons.mp hx with hx1 | hx1
            · rw [hx1, hf] at hfx
              cases hfx
            · have : tryMapOpt f vs = none :=
                tryMapOpt_eq_none_iff.mpr ⟨x, hx1, hfx⟩
              rw [this] at ht
              cases ht

theorem tryMapOpt_total {α : Type} {g : PyVal → α} :
    ∀ (vs : List PyVal), tryMapOpt (fun v => some (g v)) vs = some (vs.map g)
  | [] => rfl
  | v :: vs => by
      simp only [tryMapOpt, tryMapOpt_total vs, List.map_cons]

theorem tryMapOpt_map_comp {α β : Type} {f : PyVal → Option α} {g : α → β} :
    ∀ (vs : List PyVal),
      tryMapOpt (fun v => (f v).map g) vs = (tryMapOpt f vs).map (List.map g)
  | [] => rfl
  | v :: vs => by
      cases hf : f v with
      | none => simp [tryMapOpt, hf]
      | some a =>
        cases ht : tryMapOpt f vs with
        | none => simp [tryMapOpt, hf, ht, tryMapOpt_map_comp vs]
        | some rest => simp [tryMapOpt, hf, ht, tryMapOpt_map_comp vs]

theorem tryMapOpt_int_of_vints :
    ∀ (ns : List ℤ), tryMapOpt pyInt (ns.map PyVal.vint) = some ns
  | [] => rfl
  | n :: ns => by
      simp only [List.map_cons, tryMapOpt, pyInt, tryMapOpt_int_of_vints ns]

theorem isDigitStr_no_dot {ds : Str} (h : isDigitStr ds = true) :
    '.' ∉ ds := by
  simp only [isDigitStr, Bool.and_eq_true, List.all_eq_true] at h
  intro hc
  have := h.2 '.' hc
  simp at this

theorem pyFloatOfString_isSome_of_int {s : Str}
    (h : (pyIntOfString s).isSome = true) :
    (pyFloatOfString s).isSome = true := by
  by_cases hd : isDigitStr (pySign (pyStrip s)).2 = true
  · rw [pyFloatOfString, pyFloatBody,
      splitChar_of_not_mem (isDigitStr_no_dot hd)]
    simp [hd]
  · rw [pyIntOfString] at h
    simp only [Bool.not_eq_true] at hd
    rw [hd] at h
    simp at h

theorem best_isSome_int {vs : List PyVal}
    (h : best_datatype_for_list vs = some .tint) :
    (tryMapOpt pyInt vs).isSome = true := by
  by_contra hc
  rw [Bool.not_eq_true] at hc
  rw [best_datatype_for_list, hc] at h
  simp only [Bool.false_eq_true, if_false] at h
  split_ifs at h <;> cases h

theorem best_none_int_float {vs : List PyVal}
    (h : best_datatype_for_list vs = some .tstr) :
    tryMapOpt pyInt vs = none ∧ tryMapOpt pyFloat vs = none := by
  by_cases h1 : (tryMapOpt pyInt vs).isSome = true
  · rw [best_datatype_for_list, if_pos h1] at h
    cases h
  · by_cases h2 : (tryMapOpt pyFloat vs).isSome = true
    · rw [Bool.not_eq_true] at h1
      rw [best_datatype_for_list, h1] at h
      simp only [Bool.false_eq_true, if_false, if_pos h2] at h
      cases h
    · rw [Bool.not_eq_true] at h1 h2
      exact ⟨Option.not_isSome_iff_eq_none.mp (by simp [h1]),
             Option.not_isSome_iff_eq_none.mp (by simp [h2])⟩

theorem pyNum_fail_on_strImage {v0 : PyVal} (hf : pyFloat v0 = none) :
    pyInt (.vstr (pyStrOf v0)) = none ∧ pyFloat (.vstr (pyStrOf v0)) = none := by
  cases v0 with
  | vint n => cases hf
  | vfloat q => cases hf
  | vnone => exact ⟨by decide, by decide⟩
  | vstr s =>
    refine ⟨?_, hf⟩
    cases hi : pyIntOfString s with
    | none => exact hi
    | some n =>
      have hs := pyFloatOfString_isSome_of_int (s := s) (by rw [hi]; rfl)
      have hfs : pyFloatOfString s = none := hf
      rw [hfs] at hs
      cases hs

/-- C7 counterexample: the claim says normalization is idempotent; the
column `["1.5"]` normalizes to the float `3/2`, but normalizing that
output again yields the **int** `1`, because Python's `int()` accepts
(and truncates) floats even though it rejects the string `"1.5"` — the
values and the resulting type both change. -/
theorem C7_cex_float_column_not_idempotent :
    convert_to_best_datatype [PyVal.vstr "1.5".toList]
      = some [PyVal.vfloat (3 / 2)] ∧
    convert_to_best_datatype [PyVal.vfloat (3 / 2)]
      = some [PyVal.vint 1] := by
  have hsplit : splitChar '.' ['1', '.', '5'] = [['1'], ['5']] := by decide
  have hcond : ((List.all ['1'] Char.isDigit && List.all ['5'] Char.isDigit)
      && (!List.isEmpty ['1'] || !List.isEmpty ['5'])) = true := by decide
  have hfb : pyFloatBody ['1', '.', '5'] = some (3 / 2) := by
    simp only [pyFloatBody, hsplit]
    rw [if_pos hcond]
    have hd1 : digitsToNat ['1'] = 1 := by decide
    have hd5 : digitsToNat ['5'] = 5 := by decide
    have hlen : (['5'] : Str).length = 1 := by decide
    simp only [hd1, hd5, hlen]
    norm_num
  have hfloat : pyFloatOfString ['1', '.', '5'] = some (3 / 2) := by
    have hsg : pySign (pyStrip ['1', '.', '5']) = (false, ['1', '.', '5']) := by
      decide
    simp only [pyFloatOfString, hsg, hfb, Option.map_some]
    norm_num
  have hint15 : pyIntOfString ['1', '.', '5'] = none := by decide
  have htryint : tryMapOpt pyInt [PyVal.vstr "1.5".toList] = none := by
    simp [tryMapOpt, pyInt, hint15]
  have htryflt : tryMapOpt pyFloat [PyVal.vstr "1.5".toList]
      = some [(3 : ℚ) / 2] := by
    simp [tryMapOpt, pyFloat, hfloat]
  have hbest : best_datatype_for_list [PyVal.vstr "1.5".toList]
      = some .tfloat := by
    rw [best_datatype_for_list, htryint, htryflt]
    simp
  have hq0 : ¬((3 : ℚ) / 2 < 0) := by norm_num
  have hnum : ((3 : ℚ) / 2).num = 3 := by norm_num
  have hden : ((3 : ℚ) / 2).den = 2 := by norm_num
  have htr : ratTrunc (3 / 2) = 1 := by
    rw [ratTrunc, if_neg hq0, hnum, hden]
    decide
  have htryint2 : tryMapOpt pyInt [PyVal.vfloat (3 / 2)]
      = some [(1 : ℤ)] := by
    simp [tryMapOpt, pyInt, htr]
  have hbest2 : best_datatype_for_list [PyVal.vfloat (3 / 2)]
      = some .tint := by
    rw [best_datatype_for_list, if_pos (by rw [htryint2]; rfl)]
  constructor
  · simp only [convert_to_best_datatype, hbest]
    simp [tryMapOpt, applyType, pyFloat, hfloat]
  · simp only [convert_to_best_datatype, hbest2]
    simp [tryMapOpt, applyType, pyInt, htr]

/-- C7 amended: the normalizer is idempotent on every column whose
inferred type is int or str (re-applying it returns the same list); a
column inferred as float is the exception — a second application
converts it to ints by truncation, as in the counterexample. -/
theorem C7_amended_idempotent_on_int_or_str (vs out : List PyVal)
    (hconv : convert_to_best_datatype vs = some out)
    (htype : best_datatype_for_list vs = some .tint ∨
             best_datatype_for_list vs = some .tstr) :
    convert_to_best_datatype out = some out := by
  rcases htype with ht | ht
  · have hsome := best_isSome_int ht
    obtain ⟨ns, hns⟩ := Option.isSome_iff_exists.mp hsome
    have hout : out = ns.map PyVal.vint := by
      simp only [convert_to_best_datatype, ht] at hconv
      have hcomp : tryMapOpt (applyType .tint) vs
          = (tryMapOpt pyInt vs).map (List.map PyVal.vint) :=
        tryMapOpt_map_comp vs
      rw [hcomp, hns] at hconv
      injection hconv with h
      exact h.symm
    subst hout
    have hre : tryMapOpt pyInt (ns.map PyVal.vint) = some ns :=
      tryMapOpt_int_of_vints ns
    have hbest : best_datatype_for_list (ns.map PyVal.vint) = some .tint := by
      rw [best_datatype_for_list, if_pos (by rw [hre]; rfl)]
    simp only [convert_to_best_datatype, hbest]
    have hcomp2 : tryMapOpt (applyType .tint) (ns.map PyVal.vint)
        = (tryMapOpt pyInt (ns.map PyVal.vint)).map (List.map PyVal.vint) :=
      tryMapOpt_map_comp _
    rw [hcomp2, hre]
    rfl
  · obtain ⟨h1, h2⟩ := best_none_int_float ht
    have hout : out = vs.map (fun v => PyVal.vstr (pyStrOf v)) := by
      simp only [convert_to_best_datatype, ht] at hconv
      have htot : tryMapOpt (applyType .tstr) vs
          = some (vs.map (fun v => PyVal.vstr (pyStrOf v))) :=
        tryMapOpt_total vs
      rw [htot] at hconv
      injection hconv with h
      exact h.symm
    obtain ⟨v0, hv0m, hv0f⟩ := tryMapOpt_eq_none_iff.mp h2
    obtain ⟨hi0, hf0⟩ := pyNum_fail_on_strImage hv0f
    have hv0m' : PyVal.vstr (pyStrOf v0) ∈ out := by
      rw [hout]
      exact List.mem_map_of_mem _ hv0m
    have hint : tryMapOpt pyInt out = none :=
      tryMapOpt_eq_none_iff.mpr ⟨_, hv0m', hi0⟩
    have hflt : tryMapOpt pyFloat out = none :=
      tryMapOpt_eq_none_iff.mpr ⟨_, hv0m', hf0⟩
    have hbest : best_datatype_for_list out = some .tstr := by
      have h3 : tryMapOpt (fun v => some (pyStrOf v)) out
          = some (out.map pyStrOf) := tryMapOpt_total out
      rw [best_datatype_for_list, hint, hflt, h3]
      simp
    simp only [convert_to_best_datatype, hbest]
    have htot2 : tryMapOpt (applyType .tstr) out
        = some (out.map (fun v => PyVal.vstr (pyStrOf v))) :=
      tryMapOpt_total out
    rw [htot2, hout, List.map_map]
    have : vs.map ((fun v => PyVal.vstr (pyStrOf v)) ∘
        (fun v => PyVal.vstr (pyStrOf v)))
        = vs.map (fun v => PyVal.vstr (pyStrOf v)) :=
      List.map_congr_left (fun a _ => rfl)
    rw [this]

/-- C7 witness: an int-typed column, obtained by normalizing `["7"]`,
is a fixed point of the normalizer. -/
theorem C7_amended_idempotent_witness :
    convert_to_best_datatype [PyVal.vint 7] = some [PyVal.vint 7] :=
  C7_amended_idempotent_on_int_or_str [PyVal.vstr "7".toList] [PyVal.vint 7]
    (by decide) (Or.inl (by decide))

/-! ### Claim C10 (tabular round trip does not preserve absence) -/

theorem convert_with_none {vals out : List PyVal}
    (hmem : PyVal.vnone ∈ vals)
    (hconv : convert_to_best_datatype vals = some out) :
    out = vals.map (fun v => PyVal.vstr (pyStrOf v)) := by
  have hint : tryMapOpt pyInt vals = none :=
    tryMapOpt_eq_none_iff.mpr ⟨_, hmem, rfl⟩
  have hflt : tryMapOpt pyFloat vals = none :=
    tryMapOpt_eq_none_iff.mpr ⟨_, hmem, rfl⟩
  have hbest : best_datatype_for_list vals = some .tstr := by
    have h3 : tryMapOpt (fun v => some (pyStrOf v)) vals
        = some (vals.map pyStrOf) := tryMapOpt_total vals
    rw [best_datatype_for_list, hint, hflt, h3]
    simp
  simp only [convert_to_best_datatype, hbest] at hconv
  have htot : tryMapOpt (applyType .tstr) vals
      = some (vals.map (fun v => PyVal.vstr (pyStrOf v))) :=
    tryMapOpt_total vals
  rw [htot] at hconv
  injection hconv with h
  exact h.symm

theorem col_none_roundtrip {vals out : List PyVal} {i : ℕ}
    (hconv : convert_to_best_datatype vals = some out)
    (hi : vals[i]? = some PyVal.vnone) :
    out[i]? = some (PyVal.vstr "None".toList) := by
  have hmem := List.getElem?_mem hi
  rw [convert_with_none hmem hconv, List.getElem?_map, hi]
  rfl

theorem field_none_getD {es : List FastaEntry} {c : List PyVal} {i : ℕ}
    {e : FastaEntry} (g : FastaEntry → Option Str)
    (hc : convert_to_best_datatype (es.map (fun x => pyValOfOpt (g x)))
      = some c)
    (he : es[i]? = some e) (hg : g e = none) :
    c.getD i .vnone = .vstr "None".toList := by
  have hi : (es.map (fun x => pyValOfOpt (g x)))[i]? = some PyVal.vnone := by
    rw [List.getElem?_map, he]
    simp [hg, pyValOfOpt]
  rw [List.getD_eq_getElem?_getD, col_none_roundtrip hc hi]
  rfl

/-- C10: converting entries to the columnar table and back does not
preserve absence: a column containing the absent sentinel fails `int`
and `float` conversion (`TypeError` on `None`) and is normalized with
`str`, which renders `None` as the text `None`; row-wise reconstruction
then stores the four-character string `None` wherever the original
entry's optional field was absent. -/
theorem C10_absent_fields_become_None_strings
    (es : List FastaEntry) (d : FastaDf) (i : ℕ) (e : FastaEntry)
    (pe : DfEntry)
    (hd : entries_to_df es = some d)
    (he : es[i]? = some e)
    (hpe : (df_to_entries d)[i]? = some pe) :
    (e.protein_name = none → pe.protein_name = .vstr "None".toList) ∧
    (e.organism_name = none → pe.organism_name = .vstr "None".toList) ∧
    (e.organism_identifier = none →
      pe.organism_identifier = .vstr "None".toList) ∧
    (e.gene_name = none → pe.gene_name = .vstr "None".toList) ∧
    (e.protein_existence = none →
      pe.protein_existence = .vstr "None".toList) ∧
    (e.sequence_version = none →
      pe.sequence_version = .vstr "None".toList) := by
  simp only [entries_to_df, bind, Option.bind] at hd
  cases h1 : convert_to_best_datatype (es.map (fun x => pyValOfOpt x.db)) with
  | none => simp only [h1] at hd; cases hd
  | some c1 =>
  simp only [h1] at hd
  cases h2 : convert_to_best_datatype
      (es.map (fun x => pyValOfOpt x.unique_identifier)) with
  | none => simp only [h2] at hd; cases hd
  | some c2 =>
  simp only [h2] at hd
  cases h3 : convert_to_best_datatype
      (es.map (fun x => pyValOfOpt x.entry_name)) with
  | none => simp only [h3] at hd; cases hd
  | some c3 =>
  simp only [h3] at hd
  cases h4 : convert_to_best_datatype
      (es.map (fun x => pyValOfOpt x.protein_name)) with
  | none => simp only [h4] at hd; cases hd
  | some c4 =>
  simp only [h4] at hd
  cases h5 : convert_to_best_datatype
      (es.map (fun x => pyValOfOpt x.organism_name)) with
  | none => simp only [h5] at hd; cases hd
  | some c5 =>
  simp only [h5] at hd
  cases h6 : convert_to_best_datatype
      (es.map (fun x => pyValOfOpt x.organism_identifier)) with
  | none => simp only [h6] at hd; cases hd
  | some c6 =>
  simp only [h6] at hd
  cases h7 : convert_to_best_datatype
      (es.map (fun x => pyValOfOpt x.gene_name)) with
  | none => simp only [h7] at hd; cases hd
  | some c7 =>
  simp only [h7] at hd
  cases h8 : convert_to_best_datatype
      (es.map (fun x => pyValOfOpt x.protein_existence)) with
  | none => simp only [h8] at hd; cases hd
  | some c8 =>
  simp only [h8] at hd
  cases h9 : convert_to_best_datatype
      (es.map (fun x => pyValOfOpt x.sequence_version)) with
  | none => simp only [h9] at hd; cases hd
  | some c9 =>
  simp only [h9] at hd
  cases h10 : convert_to_best_datatype
      (es.map (fun x => PyVal.vstr x.protein_sequence)) with
  | none => simp only [h10] at hd; cases hd
  | some c10 =>
  simp only [h10, Option.pure_def] at hd
  injection hd with hd'
  subst hd'
  simp only [df_to_entries, List.getElem?_map] at hpe
  cases hr : (List.range c1.length)[i]? with
  | none => rw [hr] at hpe; cases hpe
  | some j =>
    rw [hr] at hpe
    injection hpe with hpe'
    have hij : j = i := by
      by_cases hin : i < c1.length
      · rw [List.getElem?_range hin] at hr
        injection hr with hr'
        exact hr'.symm
      · have hnone : (List.range c1.length)[i]? = none :=
          List.getElem?_eq_none (by rw [List.length_range]; omega)
        rw [hnone] at hr
        cases hr
    subst hij
    subst hpe'
    refine ⟨?_, ?_, ?_, ?_, ?_, ?_⟩
    · intro hnone
      exact field_none_getD (fun x => x.protein_name) h4 he hnone
    · intro hnone
      exact field_none_getD (fun x => x.organism_name) h5 he hnone
    · intro hnone
      exact field_none_getD (fun x => x.organism_identifier) h6 he hnone
    · intro hnone
      exact field_none_getD (fun x => x.gene_name) h7 he hnone
    · intro hnone
      exact field_none_getD (fun x => x.protein_existence) h8 he hnone
    · intro hnone
      exact field_none_getD (fun x => x.sequence_version) h9 he hnone

/-- C10 witness: one entry with absent `protein_name` and
`organism_identifier`; after the dataframe round trip both come back as
the string `None`. -/
theorem C10_absent_fields_become_None_strings_witness :
    ((⟨some "sp".toList, some "A".toList, some "B".toList, none,
       some "x".toList, none, none, none, none,
       "SEQ".toList⟩ : FastaEntry).protein_name = none →
      (⟨.vstr "sp".toList, .vstr "A".toList, .vstr "B".toList,
        .vstr "None".toList, .vstr "x".toList, .vstr "None".toList,
        .vstr "None".toList, .vstr "None".toList, .vstr "None".toList,
        .vstr "SEQ".toList⟩ : DfEntry).protein_name
        = .vstr "None".toList) ∧
    ((⟨some "sp".toList, some "A".toList, some "B".toList, none,
       some "x".toList, none, none, none, none,
       "SEQ".toList⟩ : FastaEntry).organism_name = none →
      (⟨.vstr "sp".toList, .vstr "A".toList, .vstr "B".toList,
        .vstr "None".toList, .vstr "x".toList, .vstr "None".toList,
        .vstr "None".toList, .vstr "None".toList, .vstr "None".toList,
        .vstr "SEQ".toList⟩ : DfEntry).organism_name
        = .vstr "None".toList) ∧
    ((⟨some "sp".toList, some "A".toList, some "B".toList, none,
       some "x".toList, none, none, none, none,
       "SEQ".toList⟩ : FastaEntry).organism_identifier = none →
      (⟨.vstr "sp".toList, .vstr "A".toList, .vstr "B".toList,
        .vstr "None".toList, .vstr "x".toList, .vstr "None".toList,
        .vstr "None".toList, .vstr "None".toList, .vstr "None".toList,
        .vstr "SEQ".toList⟩ : DfEntry).organism_identifier
        = .vstr "None".toList) ∧
    ((⟨some "sp".toList, some "A".toList, some "B".toList, none,
       some "x".toList, none, none, none, none,
       "SEQ".toList⟩ : FastaEntry).gene_name = none →
      (⟨.vstr "sp".toList, .vstr "A".toList, .vstr "B".toList,
        .vstr "None".toList, .vstr "x".toList, .vstr "None".toList,
        .vstr "None".toList, .vstr "None".toList, .vstr "None".toList,
        .vstr "SEQ".toList⟩ : DfEntry).gene_name
        = .vstr "None".toList) ∧
    ((⟨some "sp".toList, some "A".toList, some "B".toList, none,
       some "x".toList, none, none, none, none,
       "SEQ".toList⟩ : FastaEntry).protein_existence = none →
      (⟨.vstr "sp".toList, .vstr "A".toList, .vstr "B".toList,
        .vstr "None".toList, .vstr "x".toList, .vstr "None".toList,
        .vstr "None".toList, .vstr "None".toList, .vstr "None".toList,
        .vstr "SEQ".toList⟩ : DfEntry).protein_existence
        = .vstr "None".toList) ∧
    ((⟨some "sp".toList, some "A".toList, some "B".toList, none,
       some "x".toList, none, none, none, none,
       "SEQ".toList⟩ : FastaEntry).sequence_version = none →
      (⟨.vstr "sp".toList, .vstr "A".toList, .vstr "B".toList,
        .vstr "None".toList, .vstr "x".toList, .vstr "None".toList,
        .vstr "None".toList, .vstr "None".toList, .vstr "None".toList,
        .vstr "SEQ".toList⟩ : DfEntry).sequence_version
        = .vstr "None".toList) :=
  C10_absent_fields_become_None_strings
    [⟨some "sp".toList, some "A".toList, some "B".toList, none,
      some "x".toList, none, none, none, none, "SEQ".toList⟩]
    ⟨["sp".toList].map .vstr, ["A".toList].map .vstr, ["B".toList].map .vstr,
     ["None".toList].map .vstr, ["x".toList].map .vstr,
     ["None".toList].map .vstr, ["None".toList].map .vstr,
     ["None".toList].map .vstr, ["None".toList].map .vstr,
     ["SEQ".toList].map .vstr⟩ 0
    ⟨some "sp".toList, some "A".toList, some "B".toList, none,
     some "x".toList, none, none, none, none, "SEQ".toList⟩
    ⟨.vstr "sp".toList, .vstr "A".toList, .vstr "B".toList,
     .vstr "None".toList, .vstr "x".toList, .vstr "None".toList,
     .vstr "None".toList, .vstr "None".toList, .vstr "None".toList,
     .vstr "SEQ".toList⟩
    (by decide) (by decide) (by decide)

/-! ### Claim C1 (serialize/parse round trip) -/

theorem cleanAtom_mem {s : Str} {c : Char} (h : cleanAtom s = true)
    (hc : c ∈ s) :
    c.isWhitespace = false ∧ c ≠ '|' ∧ c ≠ '>' := by
  rw [cleanAtom, List.all_eq_true] at h
  have := h c hc
  simp only [cleanAtomChar, Bool.and_eq_true, Bool.not_eq_true',
    decide_eq_true_eq, ne_eq] at this
  exact ⟨this.1.1, this.1.2, this.2⟩

theorem cleanVal_mem {s : Str} {c : Char} (h : cleanVal s = true)
    (hc : c ∈ s) :
    (c = ' ' ∨ c.isWhitespace = false) ∧ c ≠ '>' ∧ c ≠ '=' := by
  rw [cleanVal] at h
  simp only [Bool.and_eq_true, List.all_eq_true] at h
  have := h.1.2 c hc
  simp only [cleanValChar, Bool.and_eq_true, Bool.or_eq_true,
    Bool.not_eq_true', decide_eq_true_eq, ne_eq] at this
  exact ⟨this.1.1, this.1.2, this.2⟩

theorem cleanVal_ne_nil {s : Str} (h : cleanVal s = true) : s ≠ [] := by
  rw [cleanVal] at h
  simp only [Bool.and_eq_true] at h
  simpa [List.isEmpty_iff] using h.1.1

theorem cleanVal_getLast {s : Str} (h : cleanVal s = true) :
    s.getLast? ≠ some ' ' := by
  rw [cleanVal] at h
  simp only [Bool.and_eq_true] at h
  simpa using h.2

theorem mem_fieldEntry {t : Str} {o : Option Str} {tv : Str × Str}
    (h : tv ∈ fieldEntry t o) :
    tv.1 = t ∧ o = some tv.2 ∧ tv.2 ≠ [] := by
  cases o with
  | none => cases h
  | some v =>
    by_cases hv : v.isEmpty
    · rw [fieldEntry, if_pos hv] at h
      cases h
    · rw [fieldEntry, if_neg hv] at h
      rcases List.mem_singleton.mp h with h1
      subst h1
      exact ⟨rfl, rfl, by simpa [List.isEmpty_iff] using hv⟩

theorem goodEntry_fields {e : FastaEntry} (hg : goodEntry e = true) :
    cleanAtomO e.db = true ∧ cleanAtomO e.unique_identifier = true ∧
    cleanAtomO e.entry_name = true ∧
    cleanOptField e.protein_name = true ∧
    cleanOptField e.organism_name = true ∧
    cleanOptField e.organism_identifier = true ∧
    cleanOptField e.gene_name = true ∧
    cleanOptField e.protein_existence = true ∧
    cleanOptField e.sequence_version = true ∧
    cleanSeq e.protein_sequence = true := by
  rw [goodEntry] at hg
  simp only [Bool.and_eq_true] at hg
  exact ⟨hg.1.1.1.1.1.1.1.1.1, hg.1.1.1.1.1.1.1.1.2, hg.1.1.1.1.1.1.1.2,
    hg.1.1.1.1.1.1.2, hg.1.1.1.1.1.2, hg.1.1.1.1.2, hg.1.1.1.2, hg.1.1.2,
    hg.1.2, hg.2⟩

theorem cleanAtomO_some {o : Option Str} (h : cleanAtomO o = true) :
    ∃ s, o = some s ∧ cleanAtom s = true := by
  cases o with
  | none => cases h
  | some s => exact ⟨s, rfl, h⟩

theorem mem_presentFields_props {e : FastaEntry} {tv : Str × Str}
    (hg : goodEntry e = true) (h : tv ∈ presentFields e) :
    tv.1 ∈ validTagStrs ∧ cleanVal tv.2 = true := by
  obtain ⟨_, _, _, h4, h5, h6, h7, h8, h9, _⟩ := goodEntry_fields hg
  rw [presentFields] at h
  simp only [List.mem_append] at h
  rcases h with ((((th | th) | th) | th) | th) | th <;>
    obtain ⟨ht, ho, _⟩ := mem_fieldEntry th
  · refine ⟨by rw [ht]; decide, ?_⟩
    rw [ho] at h4
    exact h4
  · refine ⟨by rw [ht]; decide, ?_⟩
    rw [ho] at h5
    exact h5
  · refine ⟨by rw [ht]; decide, ?_⟩
    rw [ho] at h6
    exact h6
  · refine ⟨by rw [ht]; decide, ?_⟩
    rw [ho] at h7
    exact h7
  · refine ⟨by rw [ht]; decide, ?_⟩
    rw [ho] at h8
    exact h8
  · refine ⟨by rw [ht]; decide, ?_⟩
    rw [ho] at h9
    exact h9

theorem joinChar_cons_of_ne_nil (c : Char) (w : Str) {ws : List Str}
    (h : ws ≠ []) : joinChar c (w :: ws) = w ++ c :: joinChar c ws := by
  cases ws with
  | nil => exact absurd rfl h
  | cons v vs => rfl

theorem joinChar_append_of_ne_nil (c : Char) :
    ∀ {A B : List Str}, A ≠ [] → B ≠ [] →
      joinChar c (A ++ B) = joinChar c A ++ c :: joinChar c B
  | [], _, hA, _ => absurd rfl hA
  | [w], B, _, hB => by
      rw [List.singleton_append, joinChar_cons_of_ne_nil c w hB, joinChar]
  | w :: v :: vs, B, _, hB => by
      rw [List.cons_append, joinChar_cons_of_ne_nil c w
          (by simp : (v :: vs) ++ B ≠ []),
        joinChar_append_of_ne_nil c (List.cons_ne_nil v vs) hB,
        joinChar, List.append_assoc, List.cons_append]

theorem joinChar_cons_prefix (c : Char) (p w : Str) (ws : List Str) :
    joinChar c ((p ++ w) :: ws) = p ++ joinChar c (w :: ws) := by
  cases ws with
  | nil => rfl
  | cons v vs => simp [joinChar, List.append_assoc]

theorem joinChar_tagValToks (tv : Str × Str) :
    joinChar ' ' (tagValToks tv) = tv.1 ++ '=' :: tv.2 := by
  obtain ⟨w, ws, hs⟩ := splitChar_eq_cons ' ' tv.2
  have hjoin : joinChar ' ' (w :: ws) = tv.2 := by
    have := joinChar_splitChar ' ' tv.2
    rw [hs] at this
    exact this
  rw [tagValToks, hs]
  simp only [List.headI, List.tail]
  rw [show tv.1 ++ '=' :: w = (tv.1 ++ ['=']) ++ w by simp,
    joinChar_cons_prefix, hjoin]
  simp

theorem tagValToks_ne_nil (tv : Str × Str) : tagValToks tv ≠ [] := by
  rw [tagValToks]
  exact List.cons_ne_nil _ _

theorem flatten_tagValToks_ne_nil {fl : List (Str × Str)} (h : fl ≠ []) :
    ((fl.map tagValToks).flatten) ≠ [] := by
  cases fl with
  | nil => exact absurd rfl h
  | cons tv fl' =>
    obtain ⟨w, ws, hs⟩ := splitChar_eq_cons ' ' tv.2
    simp only [List.map_cons, List.flatten_cons, tagValToks, hs]
    simp

theorem segs_flatten_eq :
    ∀ (fl : List (Str × Str)), fl ≠ [] →
      (fl.map segStr).flatten
        = ' ' :: joinChar ' ' ((fl.map tagValToks).flatten)
  | [], h => absurd rfl h
  | tv :: fl', _ => by
      by_cases hfl' : fl' = []
      · subst hfl'
        simp only [List.map_cons, List.map_nil, List.flatten_cons,
          List.flatten_nil, List.append_nil, joinChar_tagValToks, segStr]
        simp [List.cons_append]
      · rw [List.map_cons, List.flatten_cons, List.map_cons,
          List.flatten_cons,
          joinChar_append_of_ne_nil ' ' (tagValToks_ne_nil tv)
            (flatten_tagValToks_ne_nil hfl'),
          joinChar_tagValToks, segs_flatten_eq fl' hfl', segStr]
        simp [List.append_assoc]

theorem joinChar_headerToks (e : FastaEntry) :
    joinChar ' ' (headerToks e) = headerContent e := by
  rw [headerToks]
  by_cases hfl : presentFields e = []
  · rw [hfl]
    simp [joinChar, headerContent, firstTok, hfl]
  · rw [joinChar_cons_of_ne_nil ' ' _ (flatten_tagValToks_ne_nil hfl),
      show (' ' :: joinChar ' ' (((presentFields e).map tagValToks).flatten))
          = ((presentFields e).map segStr).flatten
        from (segs_flatten_eq _ hfl).symm]
    simp [headerContent, firstTok, List.append_assoc]

theorem not_ws_ne_nl {c : Char} (h : c.isWhitespace = false) : c ≠ '\n' := by
  intro hc
  rw [hc] at h
  exact absurd h (by decide)

theorem mem_headerContent {e : FastaEntry} {c : Char}
    (hg : goodEntry e = true) (hc : c ∈ headerContent e) :
    c ≠ '>' ∧ c ≠ '\n' := by
  obtain ⟨h1, h2, h3, _⟩ := goodEntry_fields hg
  obtain ⟨d, hdb, hd⟩ := cleanAtomO_some h1
  obtain ⟨u, huid, hu⟩ := cleanAtomO_some h2
  obtain ⟨n, hen, hn⟩ := cleanAtomO_some h3
  rw [headerContent, hdb, huid, hen] at hc
  simp only [pyFStr] at hc
  rcases List.mem_append.mp hc with hc1 | hc1
  case inl =>
    rcases List.mem_append.mp hc1 with hc2 | hc2
    case inl =>
      rcases List.mem_append.mp hc2 with hc3 | hc3
      case inl =>
        obtain ⟨hws, _, hgt⟩ := cleanAtom_mem hd hc3
        exact ⟨hgt, not_ws_ne_nl hws⟩
      case inr =>
        rcases List.mem_cons.mp hc3 with hc4 | hc4
        · subst hc4
          exact ⟨by decide, by decide⟩
        · obtain ⟨hws, _, hgt⟩ := cleanAtom_mem hu hc4
          exact ⟨hgt, not_ws_ne_nl hws⟩
    case inr =>
      rcases List.mem_cons.mp hc2 with hc4 | hc4
      · subst hc4
        exact ⟨by decide, by decide⟩
      · obtain ⟨hws, _, hgt⟩ := cleanAtom_mem hn hc4
        exact ⟨hgt, not_ws_ne_nl hws⟩
  case inr =>
    obtain ⟨sg, hsg, hcsg⟩ := List.mem_flatten.mp hc1
    obtain ⟨tv, htv, rfl⟩ := List.mem_map.mp hsg
    obtain ⟨htag, hval⟩ := mem_presentFields_props hg htv
    rw [segStr] at hcsg
    rcases List.mem_append.mp hcsg with hc1 | hc1
    · rcases List.mem_cons.mp hc1 with hc2 | hc2
      · subst hc2
        exact ⟨by decide, by decide⟩
      · have : ∀ t ∈ validTagStrs, ∀ ch ∈ t, ch ≠ '>' ∧ ch ≠ '\n' := by
          decide
        exact this tv.1 htag c hc2
    · rcases List.mem_cons.mp hc1 with hc2 | hc2
      · subst hc2
        exact ⟨by decide, by decide⟩
      · obtain ⟨hsp, hgt, _⟩ := cleanVal_mem hval hc2
        refine ⟨hgt, ?_⟩
        rcases hsp with hsp | hsp
        · subst hsp
          decide
        · exact not_ws_ne_nl hsp

theorem segStr_getLast {tv : Str × Str} (hcv : cleanVal tv.2 = true) :
    ∀ y ∈ (segStr tv).getLast?, y.isWhitespace = false := by
  intro y hy
  have hne := cleanVal_ne_nil hcv
  rw [show segStr tv = (' ' :: tv.1 ++ ['=']) ++ tv.2 by simp [segStr],
    List.getLast?_append_of_ne_nil _ hne] at hy
  have hmem : y ∈ tv.2 := List.mem_of_mem_getLast? hy
  obtain ⟨hsp, _, _⟩ := cleanVal_mem hcv hmem
  rcases hsp with hsp | hsp
  · subst hsp
    exact absurd hy (by simpa using cleanVal_getLast hcv)
  · exact hsp

theorem segStr_ne_nil (tv : Str × Str) : segStr tv ≠ [] := by
  rw [segStr]
  simp

theorem flatten_segs_getLast {fl : List (Str × Str)}
    (hcl : ∀ tv ∈ fl, cleanVal tv.2 = true) (hne : fl ≠ []) :
    ∀ y ∈ ((fl.map segStr).flatten).getLast?, y.isWhitespace = false := by
  rcases List.eq_nil_or_concat fl with h | ⟨L, tv, h⟩
  · exact absurd h hne
  · subst h
    rw [List.concat_eq_append, List.map_append, List.flatten_append]
    simp only [List.map_cons, List.map_nil, List.flatten_cons,
      List.flatten_nil, List.append_nil]
    rw [List.getLast?_append_of_ne_nil _ (segStr_ne_nil tv)]
    exact segStr_getLast (hcl tv (by simp))

theorem headerOf_last_not_ws {e : FastaEntry} (hg : goodEntry e = true) :
    ∀ y ∈ (headerOf e).getLast?, y.isWhitespace = false := by
  obtain ⟨h1, h2, h3, _⟩ := goodEntry_fields hg
  obtain ⟨d, hdb, hd⟩ := cleanAtomO_some h1
  obtain ⟨u, huid, hu⟩ := cleanAtomO_some h2
  obtain ⟨n, hen, hn⟩ := cleanAtomO_some h3
  by_cases hfl : presentFields e = []
  · intro y hy
    rw [headerOf, headerContent, hdb, huid, hen, hfl] at hy
    simp only [pyFStr, List.map_nil, List.flatten_nil, List.append_nil] at hy
    cases hnn : n.reverse with
    | nil =>
      have hn0 : n = [] := by simpa using congrArg List.reverse hnn
      subst hn0
      rw [show '>' :: (d ++ '|' :: u ++ '|' :: ([] : Str))
            = ('>' :: d ++ '|' :: u) ++ ['|'] by simp,
        List.getLast?_append_of_ne_nil _ (by simp)] at hy
      simp only [List.getLast?_singleton, Option.mem_def,
        Option.some.injEq] at hy
      subst hy
      decide
    | cons y0 ys =>
      have hn0 : n ≠ [] := by
        intro hcon
        rw [hcon] at hnn
        cases hnn
      rw [show '>' :: (d ++ '|' :: u ++ '|' :: n)
            = ('>' :: d ++ '|' :: u ++ ['|']) ++ n by simp,
        List.getLast?_append_of_ne_nil _ hn0] at hy
      have hmem : y ∈ n := List.mem_of_mem_getLast? hy
      exact (cleanAtom_mem hn hmem).1
  · intro y hy
    rw [headerOf, headerContent, hdb, huid, hen] at hy
    simp only [pyFStr] at hy
    have hFne : (((presentFields e).map segStr).flatten) ≠ [] := by
      cases hp : presentFields e with
      | nil => exact absurd hp hfl
      | cons tv fl' =>
        simp only [List.map_cons, List.flatten_cons]
        have := segStr_ne_nil tv
        intro hcon
        rcases List.append_eq_nil.mp hcon with ⟨ha, _⟩
        exact this ha
    rw [show '>' :: (d ++ '|' :: u ++ '|' :: n
            ++ ((presentFields e).map segStr).flatten)
          = ('>' :: (d ++ '|' :: u ++ '|' :: n))
            ++ ((presentFields e).map segStr).flatten by simp,
      List.getLast?_append_of_ne_nil _ hFne] at hy
    exact flatten_segs_getLast
      (fun tv htv => (mem_presentFields_props hg htv).2) hfl y hy

theorem headerOf_head {e : FastaEntry} :
    ∀ y ∈ (headerOf e).head?, y.isWhitespace = false := by
  intro y hy
  rw [headerOf] at hy
  simp only [List.head?_cons, Option.mem_def, Option.some.injEq] at hy
  subst hy
  decide

theorem headerOf_strip {e : FastaEntry} (hg : goodEntry e = true) :
    pyStrip (headerOf e) = headerOf e :=
  pyStrip_eq_self headerOf_head (headerOf_last_not_ws hg)

theorem headerOf_rstrip {e : FastaEntry} (hg : goodEntry e = true) :
    pyRstrip (headerOf e) = headerOf e :=
  pyRstrip_eq_self (headerOf_last_not_ws hg)

theorem mem_headerToks_no_space {e : FastaEntry} (hg : goodEntry e = true) :
    ∀ t ∈ headerToks e, ' ' ∉ t := by
  obtain ⟨h1, h2, h3, _⟩ := goodEntry_fields hg
  obtain ⟨d, hdb, hd⟩ := cleanAtomO_some h1
  obtain ⟨u, huid, hu⟩ := cleanAtomO_some h2
  obtain ⟨n, hen, hn⟩ := cleanAtomO_some h3
  intro t ht
  rw [headerToks] at ht
  rcases List.mem_cons.mp ht with ht1 | ht1
  · subst ht1
    intro hsp
    rw [firstTok, hdb, huid, hen] at hsp
    simp only [pyFStr] at hsp
    rcases List.mem_append.mp hsp with hs1 | hs1
    case inl =>
      rcases List.mem_append.mp hs1 with hs2 | hs2
      case inl =>
        have := (cleanAtom_mem hd hs2).1
        exact absurd this (by decide)
      case inr =>
        rcases List.mem_cons.mp hs2 with hs3 | hs3
        · exact absurd hs3 (by decide)
        · have := (cleanAtom_mem hu hs3).1
          exact absurd this (by decide)
    case inr =>
      rcases List.mem_cons.mp hs1 with hs3 | hs3
      · exact absurd hs3 (by decide)
      · have := (cleanAtom_mem hn hs3).1
        exact absurd this (by decide)
  · obtain ⟨g, hgmem, htg⟩ := List.mem_flatten.mp ht1
    obtain ⟨tv, htv, rfl⟩ := List.mem_map.mp hgmem
    obtain ⟨htag, hval⟩ := mem_presentFields_props hg htv
    obtain ⟨w, ws, hs⟩ := splitChar_eq_cons ' ' tv.2
    rw [tagValToks, hs] at htg
    simp only [List.headI, List.tail] at htg
    rcases List.mem_cons.mp htg with ht2 | ht2
    · subst ht2
      intro hsp
      rcases List.mem_append.mp hsp with hsa | hsa
      · have : ∀ tg ∈ validTagStrs, ' ' ∉ tg := by decide
        exact this tv.1 htag hsa
      · rcases List.mem_cons.mp hsa with hsb | hsb
        · exact absurd hsb (by decide)
        · exact not_mem_of_mem_splitChar ' ' tv.2 w
            (hs ▸ List.mem_cons_self _ _) hsb
    · exact not_mem_of_mem_splitChar ' ' tv.2 t
        (hs ▸ List.mem_cons_of_mem _ ht2)

theorem extract_headerOf {e : FastaEntry} (hg : goodEntry e = true) :
    _extract_fasta_header_elements (headerOf e) = headerToks e := by
  rw [_extract_fasta_header_elements, headerOf_rstrip hg]
  have hfilter : (headerOf e).filter (fun c => c ≠ '>') = headerContent e := by
    rw [headerOf, List.filter_cons]
    have hp : (decide ('>' ≠ '>')) = false := by decide
    simp only [hp, Bool.false_eq_true, if_false]
    exact List.filter_eq_self.mpr
      (fun c hcm => by simpa using (mem_headerContent hg hcm).1)
  rw [hfilter, ← joinChar_headerToks e,
    splitChar_joinChar (by rw [headerToks]; exact List.cons_ne_nil _ _)
      (mem_headerToks_no_space hg)]

theorem initial_info_headerToks {e : FastaEntry} {d u n : Str}
    (hdb : e.db = some d) (huid : e.unique_identifier = some u)
    (hen : e.entry_name = some n)
    (hd : cleanAtom d = true) (hu : cleanAtom u = true)
    (hn : cleanAtom n = true) :
    _extract_initial_info (headerToks e) = .ok ⟨some d, some u, some n, false⟩ := by
  have hsplit : splitChar '|' (firstTok e) = [d, u, n] := by
    rw [firstTok, hdb, huid, hen]
    simp only [pyFStr]
    rw [show (d ++ '|' :: u ++ '|' :: n) = joinChar '|' [d, u, n] by
        simp [joinChar, List.append_assoc],
      splitChar_joinChar (by simp)]
    intro t ht hmem
    simp only [List.mem_cons, List.not_mem_nil, or_false] at ht
    rcases ht with ht | ht | ht
    · exact absurd rfl (cleanAtom_mem hd (ht ▸ hmem)).2.1
    · exact absurd rfl (cleanAtom_mem hu (ht ▸ hmem)).2.1
    · exact absurd rfl (cleanAtom_mem hn (ht ▸ hmem)).2.1
  simp only [_extract_initial_info, headerToks, List.headI, hsplit]
  simp [List.headI, List.tail]

theorem processElems_run :
    ∀ (ws rest : List Str) (st : Str) (info : List (Str × List Str)),
      st ∈ validTagStrs → (∀ w ∈ ws, '=' ∉ w) →
      processElems (ws ++ rest) st info
        = processElems rest st (ws.foldl (fun i w => dictAppend st w i) info)
  | [], _, _, _, _, _ => rfl
  | w :: ws, rest, st, info, hst, hnoeq => by
      have hne : '=' ∉ w := hnoeq w (List.mem_cons_self _ _)
      simp only [List.cons_append, processElems, if_neg hne, if_pos hst,
        List.foldl_cons]
      exact processElems_run ws rest st _ hst
        (fun x hx => hnoeq x (List.mem_cons_of_mem _ hx))

theorem dictGet_foldl_same {st : Str} :
    ∀ (ws : List Str) {info : List (Str × List Str)} {vs : List Str},
      dictGet st info = some vs →
      dictGet st (ws.foldl (fun i w => dictAppend st w i) info)
        = some (vs ++ ws)
  | [], _, _, h => by simpa using h
  | w :: ws, info, vs, h => by
      rw [List.foldl_cons]
      have h2 : dictGet st (dictAppend st w info) = some (vs ++ [w]) := by
        rw [dictGet_dictAppend_same, h]
        rfl
      rw [dictGet_foldl_same ws h2]
      simp

theorem dictGet_foldl_ne {st k : Str} (hk : k ≠ st) :
    ∀ (ws : List Str) (info : List (Str × List Str)),
      dictGet k (ws.foldl (fun i w => dictAppend st w i) info)
        = dictGet k info
  | [], _ => rfl
  | w :: ws, info => by
      rw [List.foldl_cons, dictGet_foldl_ne hk ws,
        dictGet_dictAppend_ne _ hk]

theorem pairLookup_eq_none {k : Str} :
    ∀ {fl : List (Str × Str)}, k ∉ fl.map Prod.fst → pairLookup k fl = none
  | [], _ => rfl
  | (t, v) :: fl', h => by
      simp only [List.map_cons, List.mem_cons, not_or] at h
      rw [pairLookup, if_neg (fun hc => h.1 hc.symm), pairLookup_eq_none h.2]

theorem processElems_fields :
    ∀ (fl : List (Str × Str)) (st : Str) (info : List (Str × List Str)),
      st ∈ validTagStrs →
      (∀ tv ∈ fl, tv.1 ∈ validTagStrs ∧ cleanVal tv.2 = true) →
      ((fl.map Prod.fst).Nodup) →
      (∀ tv ∈ fl, dictGet tv.1 info = none) →
      ∃ info', processElems ((fl.map tagValToks).flatten) st info = .ok info' ∧
        ∀ k, dictGet k info'
          = (match pairLookup k fl with
             | some v => some (splitChar ' ' v)
             | none => dictGet k info)
  | [], _, info, _, _, _, _ => ⟨info, rfl, fun k => by simp [pairLookup]⟩
  | (t, v) :: fl', st, info, hst, hprops, hnodup, hnone => by
      obtain ⟨w, ws, hs⟩ := splitChar_eq_cons ' ' v
      obtain ⟨htag, hval⟩ := hprops (t, v) (List.mem_cons_self _ _)
      have htlen : t.length = 2 := by
        have : ∀ tg ∈ validTagStrs, tg.length = 2 := by decide
        exact this t htag
      have hmeq : '=' ∈ (t ++ '=' :: w) :=
        List.mem_append.mpr (Or.inr (List.mem_cons_self _ _))
      have htake : (t ++ '=' :: w).take 2 = t := by
        rw [← htlen]
        exact List.take_left ..
      have hdrop : (t ++ '=' :: w).drop 3 = w := by
        rw [show t ++ '=' :: w = (t ++ ['=']) ++ w by simp,
          show (3 : ℕ) = (t ++ ['=']).length by simp [htlen]]
        exact List.drop_left ..
      have htvt : tagValToks (t, v) = (t ++ '=' :: w) :: ws := by
        simp only [tagValToks, hs]
        rfl
      simp only [List.map_cons, List.flatten_cons, htvt, List.cons_append]
      simp only [processElems, if_pos hmeq]
      rw [htake, hdrop, if_pos htag,
        processElems_run ws _ t _ htag ?hwsnoeq]
      case hwsnoeq =>
        intro tok htok hmem
        have hin : tok ∈ splitChar ' ' v := hs ▸ List.mem_cons_of_mem _ htok
        have hev : '=' ∈ v := mem_of_mem_splitChar hin '=' hmem
        exact (cleanVal_mem hval hev).2.2 rfl
      have ht_info : dictGet t info = none :=
        hnone (t, v) (List.mem_cons_self _ _)
      have happ : dictGet t (dictAppend t w info) = some [w] := by
        rw [dictGet_dictAppend_same, ht_info]
        rfl
      have hinfo1 := dictGet_foldl_same ws happ
      have hnd : t ∉ fl'.map Prod.fst ∧ (fl'.map Prod.fst).Nodup := by
        simpa [List.nodup_cons] using hnodup
      have hnone' : ∀ tv ∈ fl',
          dictGet tv.1 (ws.foldl (fun i w2 => dictAppend t w2 i)
            (dictAppend t w info)) = none := by
        intro tv htv
        have hne : tv.1 ≠ t := fun hc => hnd.1 (hc ▸ List.mem_map_of_mem _ htv)
        rw [dictGet_foldl_ne hne, dictGet_dictAppend_ne _ hne]
        exact hnone tv (List.mem_cons_of_mem _ htv)
      obtain ⟨info', hproc, hchar⟩ := processElems_fields fl' t
        (ws.foldl (fun i w2 => dictAppend t w2 i) (dictAppend t w info)) htag
        (fun tv htv => hprops tv (List.mem_cons_of_mem _ htv)) hnd.2 hnone'
      refine ⟨info', hproc, ?_⟩
      intro k
      rw [hchar k]
      by_cases hk : k = t
      · subst hk
        rw [pairLookup_eq_none hnd.1, hinfo1, pairLookup, if_pos rfl]
        simp [hs]
      · rw [dictGet_foldl_ne hk, dictGet_dictAppend_ne _ hk, pairLookup,
          if_neg (fun hc => hk hc.symm)]

theorem fieldEntry_keys_sublist (t : Str) (o : Option Str) :
    ((fieldEntry t o).map Prod.fst).Sublist [t] := by
  cases o with
  | none => exact List.nil_sublist _
  | some v =>
    by_cases hv : v.isEmpty
    · rw [fieldEntry, if_pos hv]
      exact List.nil_sublist _
    · rw [fieldEntry, if_neg hv]
      simp only [List.map_cons, List.map_nil]
      exact List.Sublist.refl _

theorem presentFields_keys_nodup (e : FastaEntry) :
    ((presentFields e).map Prod.fst).Nodup := by
  have hsub : ((presentFields e).map Prod.fst).Sublist
      ([tagPN] ++ [tagOS] ++ [tagOX] ++ [tagGN] ++ [tagPE] ++ [tagSV]) := by
    rw [presentFields]
    simp only [List.map_append]
    exact ((((((fieldEntry_keys_sublist _ _).append
      (fieldEntry_keys_sublist _ _)).append
      (fieldEntry_keys_sublist _ _)).append
      (fieldEntry_keys_sublist _ _)).append
      (fieldEntry_keys_sublist _ _)).append
      (fieldEntry_keys_sublist _ _))
  exact List.Nodup.sublist hsub (by decide)

theorem pairLookup_append (k : Str) :
    ∀ (A B : List (Str × Str)), pairLookup k (A ++ B)
      = match pairLookup k A with
        | some v => some v
        | none => pairLookup k B
  | [], _ => rfl
  | (t, v) :: A, B => by
      by_cases ht : t = k
      · simp only [List.cons_append, pairLookup, if_pos ht]
      · simp only [List.cons_append, pairLookup, if_neg ht]
        exact pairLookup_append k A B

theorem pairLookup_fieldEntry (k t : Str) (o : Option Str) :
    pairLookup k (fieldEntry t o) = if t = k then presentVal o else none := by
  cases o with
  | none =>
    simp [fieldEntry, pairLookup, presentVal]
  | some v =>
    by_cases hv : v.isEmpty
    · rw [fieldEntry, if_pos hv]
      simp [pairLookup, presentVal, hv]
    · rw [fieldEntry, if_neg hv]
      by_cases ht : t = k
      · rw [pairLookup, if_pos ht, if_pos ht, presentVal, if_neg hv]
      · rw [pairLookup, if_neg ht, if_neg ht]
        rfl

theorem pairLookup_fieldEntry_self (t : Str) (o : Option Str) :
    pairLookup t (fieldEntry t o) = presentVal o := by
  rw [pairLookup_fieldEntry, if_pos rfl]

theorem pairLookup_fieldEntry_ne {k t : Str} (h : t ≠ k) (o : Option Str) :
    pairLookup k (fieldEntry t o) = none := by
  rw [pairLookup_fieldEntry, if_neg h]

theorem pairLookup_presentFields_PN (e : FastaEntry) :
    pairLookup tagPN (presentFields e) = presentVal e.protein_name := by
  rw [presentFields, pairLookup_append, pairLookup_append, pairLookup_append,
    pairLookup_append, pairLookup_append, pairLookup_fieldEntry_self,
    pairLookup_fieldEntry_ne (show tagOS ≠ tagPN by decide),
    pairLookup_fieldEntry_ne (show tagOX ≠ tagPN by decide),
    pairLookup_fieldEntry_ne (show tagGN ≠ tagPN by decide),
    pairLookup_fieldEntry_ne (show tagPE ≠ tagPN by decide),
    pairLookup_fieldEntry_ne (show tagSV ≠ tagPN by decide)]
  rcases presentVal e.protein_name with _ | v <;> rfl

theorem pairLookup_presentFields_OS (e : FastaEntry) :
    pairLookup tagOS (presentFields e) = presentVal e.organism_name := by
  rw [presentFields, pairLookup_append, pairLookup_append, pairLookup_append,
    pairLookup_append, pairLookup_append, pairLookup_fieldEntry_self,
    pairLookup_fieldEntry_ne (show tagPN ≠ tagOS by decide),
    pairLookup_fieldEntry_ne (show tagOX ≠ tagOS by decide),
    pairLookup_fieldEntry_ne (show tagGN ≠ tagOS by decide),
    pairLookup_fieldEntry_ne (show tagPE ≠ tagOS by decide),
    pairLookup_fieldEntry_ne (show tagSV ≠ tagOS by decide)]
  rcases presentVal e.organism_name with _ | v <;> rfl

theorem pairLookup_presentFields_OX (e : FastaEntry) :
    pairLookup tagOX (presentFields e) = presentVal e.organism_identifier := by
  rw [presentFields, pairLookup_append, pairLookup_append, pairLookup_append,
    pairLookup_append, pairLookup_append, pairLookup_fieldEntry_self,
    pairLookup_fieldEntry_ne (show tagPN ≠ tagOX by decide),
    pairLookup_fieldEntry_ne (show tagOS ≠ tagOX by decide),
    pairLookup_fieldEntry_ne (show tagGN ≠ tagOX by decide),
    pairLookup_fieldEntry_ne (show tagPE ≠ tagOX by decide),
    pairLookup_fieldEntry_ne (show tagSV ≠ tagOX by decide)]
  rcases presentVal e.organism_identifier with _ | v <;> rfl

theorem pairLookup_presentFields_GN (e : FastaEntry) :
    pairLookup tagGN (presentFields e) = presentVal e.gene_name := by
  rw [presentFields, pairLookup_append, pairLookup_append, pairLookup_append,
    pairLookup_append, pairLookup_append, pairLookup_fieldEntry_self,
    pairLookup_fieldEntry_ne (show tagPN ≠ tagGN by decide),
    pairLookup_fieldEntry_ne (show tagOS ≠ tagGN by decide),
    pairLookup_fieldEntry_ne (show tagOX ≠ tagGN by decide),
    pairLookup_fieldEntry_ne (show tagPE ≠ tagGN by decide),
    pairLookup_fieldEntry_ne (show tagSV ≠ tagGN by decide)]
  rcases presentVal e.gene_name with _ | v <;> rfl

theorem pairLookup_presentFields_PE (e : FastaEntry) :
    pairLookup tagPE (presentFields e) = presentVal e.protein_existence := by
  rw [presentFields, pairLookup_append, pairLookup_append, pairLookup_append,
    pairLookup_append, pairLookup_append, pairLookup_fieldEntry_self,
    pairLookup_fieldEntry_ne (show tagPN ≠ tagPE by decide),
    pairLookup_fieldEntry_ne (show tagOS ≠ tagPE by decide),
    pairLookup_fieldEntry_ne (show tagOX ≠ tagPE by decide),
    pairLookup_fieldEntry_ne (show tagGN ≠ tagPE by decide),
    pairLookup_fieldEntry_ne (show tagSV ≠ tagPE by decide)]
  rcases presentVal e.protein_existence with _ | v <;> rfl

theorem pairLookup_presentFields_SV (e : FastaEntry) :
    pairLookup tagSV (presentFields e) = presentVal e.sequence_version := by
  rw [presentFields, pairLookup_append, pairLookup_append, pairLookup_append,
    pairLookup_append, pairLookup_append, pairLookup_fieldEntry_self,
    pairLookup_fieldEntry_ne (show tagPN ≠ tagSV by decide),
    pairLookup_fieldEntry_ne (show tagOS ≠ tagSV by decide),
    pairLookup_fieldEntry_ne (show tagOX ≠ tagSV by decide),
    pairLookup_fieldEntry_ne (show tagGN ≠ tagSV by decide),
    pairLookup_fieldEntry_ne (show tagPE ≠ tagSV by decide)]

theorem joinedValue_presentVal {o : Option Str} (h : cleanOptField o = true) :
    joinedValue (match presentVal o with
      | some v => some (splitChar ' ' v)
      | none => none) = o := by
  cases o with
  | none => rfl
  | some v =>
    have hv : cleanVal v = true := h
    have hemp : v.isEmpty = false := by
      simpa [List.isEmpty_iff] using cleanVal_ne_nil hv
    have hpv : presentVal (some v) = some v := by
      simp [presentVal, hemp]
    rw [hpv]
    show joinedValue (some (splitChar ' ' v)) = some v
    have hne : (splitChar ' ' v).isEmpty = false := by
      simpa [List.isEmpty_iff] using splitChar_ne_nil ' ' v
    simp only [joinedValue, hne, Bool.false_eq_true, if_false,
      joinChar_splitChar]

theorem fasta_str_to_entry_headerOf {e : FastaEntry} (hg : goodEntry e = true) :
    _fasta_str_to_entry (headerOf e)
      = .ok ({ e with protein_sequence := [] }, false) := by
  obtain ⟨h1, h2, h3, h4, h5, h6, h7, h8, h9, _⟩ := goodEntry_fields hg
  obtain ⟨d, hdb, hd⟩ := cleanAtomO_some h1
  obtain ⟨u, huid, hu⟩ := cleanAtomO_some h2
  obtain ⟨n, hen, hn⟩ := cleanAtomO_some h3
  have hinit := initial_info_headerToks hdb huid hen hd hu hn
  obtain ⟨info, hproc, hchar⟩ := processElems_fields (presentFields e) tagPN []
    (by decide) (fun tv htv => mem_presentFields_props hg htv)
    (presentFields_keys_nodup e) (fun tv _ => rfl)
  have hple : _process_line_elements (headerToks e) = .ok info := hproc
  have hget : ∀ k, dictGet k info
      = match pairLookup k (presentFields e) with
        | some v => some (splitChar ' ' v)
        | none => none := by
    intro k
    rw [hchar k]
    rcases pairLookup k (presentFields e) with _ | v <;> rfl
  have hPN : joinedValue (dictGet tagPN info) = e.protein_name := by
    rw [hget tagPN, pairLookup_presentFields_PN]
    exact joinedValue_presentVal h4
  have hOS : joinedValue (dictGet tagOS info) = e.organism_name := by
    rw [hget tagOS, pairLookup_presentFields_OS]
    exact joinedValue_presentVal h5
  have hOX : joinedValue (dictGet tagOX info) = e.organism_identifier := by
    rw [hget tagOX, pairLookup_presentFields_OX]
    exact joinedValue_presentVal h6
  have hGN : joinedValue (dictGet tagGN info) = e.gene_name := by
    rw [hget tagGN, pairLookup_presentFields_GN]
    exact joinedValue_presentVal h7
  have hPE : joinedValue (dictGet tagPE info) = e.protein_existence := by
    rw [hget tagPE, pairLookup_presentFields_PE]
    exact joinedValue_presentVal h8
  have hSV : joinedValue (dictGet tagSV info) = e.sequence_version := by
    rw [hget tagSV, pairLookup_presentFields_SV]
    exact joinedValue_presentVal h9
  simp only [_fasta_str_to_entry, bind, Except.bind, extract_headerOf hg,
    hinit, hple, pure, Except.pure]
  rw [hPN, hOS, hOX, hGN, hPE, hSV, ← hdb, ← huid, ← hen]

theorem cleanSeq_props {s : Str} (h : cleanSeq s = true) :
    ('\n' ∉ s) ∧ (∀ y ∈ s.head?, y.isWhitespace = false ∧ y ≠ '>')
      ∧ (∀ y ∈ s.getLast?, y.isWhitespace = false) := by
  rw [cleanSeq] at h
  simp only [Bool.and_eq_true, List.all_eq_true] at h
  refine ⟨?_, ?_, ?_⟩
  · intro hc
    have := h.1.1 '\n' hc
    simp at this
  · intro y hy
    have h2 := h.1.2
    cases hhd : s.head? with
    | none => rw [hhd] at hy; cases hy
    | some a =>
      rw [hhd] at hy
      rw [hhd] at h2
      simp only [Option.all, Bool.and_eq_true, Bool.not_eq_true',
        decide_eq_true_eq] at h2
      have hya : a = y := by simpa using hy
      rw [← hya]
      exact h2
  · intro y hy
    have h2 := h.2
    cases hhd : s.getLast? with
    | none => rw [hhd] at hy; cases hy
    | some a =>
      rw [hhd] at hy
      rw [hhd] at h2
      simp only [Option.all, Bool.not_eq_true'] at h2
      have hya : a = y := by simpa using hy
      rw [← hya]
      exact h2

theorem splitNl_entries_to_fasta :
    ∀ (es : List FastaEntry), (∀ e ∈ es, goodEntry e = true) →
      splitChar '\n' (entries_to_fasta es)
        = (es.map (fun e => [headerOf e, e.protein_sequence])).flatten ++ [[]]
  | [], _ => rfl
  | e :: es, hg => by
      have hge := hg e (List.mem_cons_self _ _)
      have hrest := splitNl_entries_to_fasta es
        (fun x hx => hg x (List.mem_cons_of_mem _ hx))
      have hnh : '\n' ∉ headerOf e := by
        intro hc
        rw [headerOf] at hc
        rcases List.mem_cons.mp hc with hc | hc
        · exact absurd hc (by decide)
        · exact (mem_headerContent hge hc).2 rfl
      have hns : '\n' ∉ e.protein_sequence :=
        (cleanSeq_props (goodEntry_fields hge).2.2.2.2.2.2.2.2.2).1
      show splitChar '\n' (serialize e ++ entries_to_fasta es) = _
      rw [serialize_eq_headerOf]
      rw [show (headerOf e ++ '\n' :: e.protein_sequence ++ ['\n'])
            ++ entries_to_fasta es
          = headerOf e
            ++ '\n' :: (e.protein_sequence ++ '\n' :: entries_to_fasta es) by
        simp [List.append_assoc]]
      rw [splitChar_append_cons _ hnh, splitChar_append_cons _ hns, hrest]
      simp

theorem read_lines_entries_to_fasta (es : List FastaEntry)
    (hg : ∀ e ∈ es, goodEntry e = true) :
    read_lines_from_string (entries_to_fasta es)
      = (es.map (fun e => [headerOf e, e.protein_sequence])).flatten ++ [[]] := by
  rw [read_lines_from_string]
  have hid : ∀ t ∈ splitChar '\n' (entries_to_fasta es), pyRstripNl t = t :=
    fun t ht => pyRstripNl_eq_self (not_mem_of_mem_splitChar '\n' _ t ht)
  rw [List.map_congr_left hid]
  have hmapid : List.map (fun a => a) (splitChar '\n' (entries_to_fasta es))
      = splitChar '\n' (entries_to_fasta es) := List.map_id' _
  rw [hmapid, splitNl_entries_to_fasta es hg]

theorem fastaLines_blank_step (skip : Bool) (rest : List Str)
    (cur : Option FastaEntry) :
    fastaLinesToEntries skip ([] :: rest) cur
      = fastaLinesToEntries skip rest cur := by
  simp [fastaLinesToEntries, pyStrip]

theorem fastaLines_header_step (skip : Bool) (l : Str) (rest : List Str)
    (cur : Option FastaEntry) (e2 : FastaEntry) (w : Bool)
    (hstrip : pyStrip l = l) (hemp : l.isEmpty = false) (hgt : l.headI = '>')
    (hok : _fasta_str_to_entry l = .ok (e2, w)) :
    fastaLinesToEntries skip (l :: rest) cur
      = (cur.toList ++ (fastaLinesToEntries skip rest (some e2)).1,
        (fastaLinesToEntries skip rest (some e2)).2) := by
  simp only [fastaLinesToEntries, hstrip, hemp, Bool.false_eq_true, if_false,
    hgt, if_pos rfl, ite_true, hok]

theorem fastaLines_seq_step (skip : Bool) (l : Str) (rest : List Str)
    (e e2 : FastaEntry)
    (hstrip : pyStrip l = l) (hemp : l.isEmpty = false)
    (hgt : ¬ l.headI = '>')
    (he2 : e2 = { e with protein_sequence := e.protein_sequence ++ l }) :
    fastaLinesToEntries skip (l :: rest) (some e)
      = fastaLinesToEntries skip rest (some e2) := by
  subst he2
  simp only [fastaLinesToEntries, hstrip, hemp, Bool.false_eq_true, if_false,
    if_neg hgt]

theorem fastaLines_roundtrip (skip : Bool) :
    ∀ (es : List FastaEntry) (cur : Option FastaEntry),
      (∀ e ∈ es, goodEntry e = true) →
      fastaLinesToEntries skip
        ((es.map (fun e => [headerOf e, e.protein_sequence])).flatten ++ [[]])
        cur
        = (cur.toList ++ es, none)
  | [], cur, _ => by
      simp only [List.map_nil, List.flatten_nil, List.nil_append]
      rw [fastaLines_blank_step]
      simp [fastaLinesToEntries]
  | e :: es, cur, hg => by
      have hge := hg e (List.mem_cons_self _ _)
      have hrest := fastaLines_roundtrip skip es (some e)
        (fun x hx => hg x (List.mem_cons_of_mem _ hx))
      have hne : (headerOf e).isEmpty = false := by
        rw [headerOf]
        rfl
      have hgt : (headerOf e).headI = '>' := by
        rw [headerOf]
        rfl
      simp only [List.map_cons, List.flatten_cons, List.cons_append,
        List.nil_append, List.append_assoc]
      rw [fastaLines_header_step skip _ _ _ _ _ (headerOf_strip hge) hne hgt
        (fasta_str_to_entry_headerOf hge)]
      have hseq : fastaLinesToEntries skip
          (e.protein_sequence ::
            ((es.map (fun x => [headerOf x, x.protein_sequence])).flatten
              ++ [[]]))
          (some { e with protein_sequence := [] }) = (e :: es, none) := by
        by_cases hsq : e.protein_sequence = []
        · have hee : ({ e with protein_sequence := [] } : FastaEntry) = e := by
            rw [← hsq]
          rw [hsq, hee, fastaLines_blank_step, hrest]
          rfl
        · obtain ⟨_, hhd, hlst⟩ :=
            cleanSeq_props (goodEntry_fields hge).2.2.2.2.2.2.2.2.2
          have hstrip := pyStrip_eq_self (fun y hy => (hhd y hy).1) hlst
          have hemp2 : e.protein_sequence.isEmpty = false := by
            simpa [List.isEmpty_iff] using hsq
          obtain ⟨a, s, hsq2⟩ := List.exists_cons_of_ne_nil hsq
          have hgt2 : ¬ e.protein_sequence.headI = '>' := by
            rw [hsq2]
            exact fun hc => (hhd a (by rw [hsq2]; rfl)).2 hc
          rw [fastaLines_seq_step skip e.protein_sequence _
            ({ e with protein_sequence := [] }) e hstrip hemp2 hgt2 rfl,
            hrest]
          rfl
      rw [hseq]

/-! ### Claim C1 (serialize/parse round trip) -/

/-- C1 counterexample: an entry satisfying the claim's hypotheses
(`db` and `entry_name` present, no `=` anywhere in any free-text field)
whose round trip loses a field: `serialize` guards optional fields with
Python truthiness, so a present-but-empty `protein_name` is not emitted
and parses back as absent. -/
theorem C1_cex_empty_name_breaks_roundtrip :
    fasta_to_entries (entries_to_fasta [entryWithEmptyProteinName]) false
      ≠ ([entryWithEmptyProteinName], none) := by decide

/-- C1 (corrected): the round trip is exact on every sequence of *good*
entries — `db`, `unique_identifier` and `entry_name` present with no
whitespace, `|`, `>` (and no `=` in the first two), each optional field
absent or non-empty with no `=`/`>`/non-space whitespace and no trailing
space, and a sequence with no newline, no leading `>`, and no whitespace
at either end — in both default and skip-error mode, with no error. -/
theorem C1_amended_roundtrip (es : List FastaEntry) (skip_error : Bool)
    (hg : ∀ e ∈ es, goodEntry e = true) :
    fasta_to_entries (entries_to_fasta es) skip_error = (es, none) := by
  rw [fasta_to_entries, read_lines_entries_to_fasta es hg,
    fastaLines_roundtrip skip_error es none hg]
  rfl

/-- C1 witness: the amended round trip at a concrete two-entry list. -/
theorem C1_amended_roundtrip_witness :
    (∀ e ∈ [(⟨some "sp".toList, some "P1".toList, some "N1".toList,
        some "Good name".toList, none, some "9606".toList, none, none,
        none, "MK".toList⟩ : FastaEntry),
      (⟨some "tr".toList, some "P2".toList, some "N2".toList,
        none, none, none, none, none, none, "RW".toList⟩ : FastaEntry)],
      goodEntry e = true) ∧
    fasta_to_entries (entries_to_fasta
      [(⟨some "sp".toList, some "P1".toList, some "N1".toList,
        some "Good name".toList, none, some "9606".toList, none, none,
        none, "MK".toList⟩ : FastaEntry),
      (⟨some "tr".toList, some "P2".toList, some "N2".toList,
        none, none, none, none, none, none, "RW".toList⟩ : FastaEntry)]) true
      = ([(⟨some "sp".toList, some "P1".toList, some "N1".toList,
        some "Good name".toList, none, some "9606".toList, none, none,
        none, "MK".toList⟩ : FastaEntry),
      (⟨some "tr".toList, some "P2".toList, some "N2".toList,
        none, none, none, none, none, none, "RW".toList⟩ : FastaEntry)],
        none) :=
  ⟨by decide, C1_amended_roundtrip _ true (by decide)⟩
